import Mathlib

/-!
# Time-series normalization pipeline of the PurCarte dashboard theme

Shallow embedding of the chart-data pipeline found in
`src/utils/localeUtils.ts` (`fillMissingTimePoints`, `interpolateNullsLinear`,
`cutPeakValues`, `sampleDataByRetention`, `calculateTaskStats`) and
`src/pages/instance/PingChart.tsx` (the `midData` time-bucket merge and the
stride downsampling step of `chartData`).

Modelling conventions:
* JavaScript numbers are modelled as `ℚ`; timestamps (`Date.getTime()`
  results) are `ℚ` as well.  `Math.round(x * 100) / 100` becomes
  `⌊x * 100 + 1/2⌋ / 100`, matching JS `Math.round` (half towards +∞).
* A chart row is a time stamp together with a sparse assignment of series
  keys (stringified task ids, modelled as `ℕ`) to values; a missing or
  `null` cell is `none`.  Where the code distinguishes `null` from
  `undefined` (the `midData` bucket rows) a three-state `Cell` is used.
* Fallible / absent arguments (`totalSeconds: number | null`, optional
  options) are `Option` values.
-/

namespace PurCarte

/-- A chart row: a timestamp in milliseconds plus per-key numeric cells.
`none` models a `null`/`undefined`/absent cell. -/
structure Row where
  timeMs : ℚ
  vals : ℕ → Option ℚ

/-- Value of the cell of row `i`, key `k` (out of range ↦ `none`). -/
def rowVal (rows : List Row) (i k : ℕ) : Option ℚ :=
  (rows.get? i).bind (fun r => r.vals k)

/-- Timestamp of row `i` (out of range ↦ `0`; only used under range bounds). -/
def rowTime (rows : List Row) (i : ℕ) : ℚ :=
  ((rows.get? i).map Row.timeMs).getD 0

/-- `result[j] = { ...result[j], [key]: v }`: replace the cell of row `j`,
key `k` by `v`, leaving every other cell and all timestamps unchanged. -/
def setCell : List Row → ℕ → ℕ → Option ℚ → List Row
  | [], _, _, _ => []
  | r :: rs, 0, k, v => { r with vals := fun k' => if k' = k then v else r.vals k' } :: rs
  | r :: rs, j + 1, k, v => r :: setCell rs j k v

/-- JS `Math.round(x * 100) / 100`. -/
def round2 (q : ℚ) : ℚ := (⌊q * 100 + 1 / 2⌋ : ℚ) / 100

/-- `clamp(v, lo, hi) = Math.max(lo, Math.min(hi, v))`. -/
def clamp (v lo hi : ℚ) : ℚ := max lo (min hi v)

@[simp] theorem length_setCell (rows : List Row) (j k : ℕ) (v : Option ℚ) :
    (setCell rows j k v).length = rows.length := by
  induction rows generalizing j with
  | nil => rfl
  | cons r rs ih =>
    cases j with
    | zero => rfl
    | succ j => simp [setCell, ih]

theorem rowVal_setCell (rows : List Row) (j k : ℕ) (v : Option ℚ) (i k' : ℕ) :
    rowVal (setCell rows j k v) i k' =
      if i = j ∧ k' = k ∧ j < rows.length then v else rowVal rows i k' := by
  induction rows generalizing i j with
  | nil => simp [setCell, rowVal]
  | cons r rs ih =>
    cases j with
    | zero =>
      cases i with
      | zero =>
        by_cases hk : k' = k <;> simp [setCell, rowVal, hk]
      | succ i => simp [setCell, rowVal]
    | succ j =>
      cases i with
      | zero => simp [setCell, rowVal]
      | succ i =>
        show rowVal (setCell rs j k v) i k' = _
        rw [ih]
        simp only [List.length_cons]
        have e1 : (i + 1 = j + 1 ∧ k' = k ∧ j + 1 < rs.length + 1) ↔
            (i = j ∧ k' = k ∧ j < rs.length) := by omega
        exact if_congr e1.symm rfl rfl

theorem rowTime_setCell (rows : List Row) (j k : ℕ) (v : Option ℚ) (i : ℕ) :
    rowTime (setCell rows j k v) i = rowTime rows i := by
  induction rows generalizing i j with
  | nil => simp [setCell]
  | cons r rs ih =>
    cases j with
    | zero => cases i <;> simp [setCell, rowTime]
    | succ j =>
      cases i with
      | zero => simp [setCell, rowTime]
      | succ i =>
        simpa [setCell, rowTime] using ih j i

/-! ## `calculateTaskStats` (localeUtils.ts lines 643-674)

A raw ping history record `{ time, task_id, value }`; `time` strings are
modelled by their parsed millisecond timestamps. -/

structure PingRec where
  timeMs : ℚ
  task_id : ℕ
  value : ℚ

structure TaskStats where
  loss : ℚ
  latestValue : Option ℚ
  latestTime : Option ℚ
  deriving DecidableEq

/-- JS `Array.prototype.reduce` without initial value: seed with the head,
fold over the tail.  `latest` selection uses strict `>` so the first
maximum encountered wins. -/
def latestOf (head : PingRec) (tail : List PingRec) : PingRec :=
  tail.foldl (fun latest current =>
    if current.timeMs > latest.timeMs then current else latest) head

/-- `timeRange ? records.filter(...) : records`. -/
def relevantRecordsOf (records : List PingRec) (timeRange : Option (ℚ × ℚ)) :
    List PingRec :=
  match timeRange with
  | some tr =>
    records.filter (fun (r : PingRec) => decide (tr.1 ≤ r.timeMs ∧ r.timeMs ≤ tr.2))
  | none => records

/-- `relevantRecords?.filter((rec) => rec.task_id === taskId) || []`. -/
def taskRecordsOf (records : List PingRec) (taskId : ℕ)
    (timeRange : Option (ℚ × ℚ)) : List PingRec :=
  (relevantRecordsOf records timeRange).filter
    (fun (r : PingRec) => decide (r.task_id = taskId))

def calculateTaskStats (records : List PingRec) (taskId : ℕ)
    (timeRange : Option (ℚ × ℚ)) : TaskStats :=
  let taskRecords := taskRecordsOf records taskId timeRange
  let totalPings := taskRecords.length
  let successfulPings := taskRecords.filter (fun (r : PingRec) => decide (r.value ≥ 0))
  let loss : ℚ :=
    if totalPings > 0 then (1 - (successfulPings.length : ℚ) / (totalPings : ℚ)) * 100 else 0
  match successfulPings with
  | [] => { loss := loss, latestValue := none, latestTime := none }
  | h :: t =>
    let latestRecord := latestOf h t
    { loss := loss, latestValue := some latestRecord.value,
      latestTime := some latestRecord.timeMs }

/-! ## `sampleDataByRetention` (localeUtils.ts lines 551-627) -/

/-- The sampling-interval lookup table (minutes), lines 561-587. -/
def sampleInterval (retentionHours : ℚ) (isMiniChart : Bool) : ℚ :=
  if isMiniChart then
    if retentionHours ≤ 72 then 5
    else if retentionHours ≤ 168 then 30
    else if retentionHours ≤ 720 then 60
    else if retentionHours ≤ 2160 then 120
    else 180
  else
    if retentionHours ≤ 72 then 1
    else if retentionHours ≤ 168 then 15
    else if retentionHours ≤ 720 then 30
    else if retentionHours ≤ 2160 then 60
    else 90

def sampleDataByRetention (data : List Row) (retentionHours : ℚ)
    (isMiniChart : Bool) : List Row :=
  if data.length = 0 then []
  else
    let sampleIntervalMin := sampleInterval retentionHours isMiniChart
    if data.length ≤ 2 then data
    else
      match data with
      | [] => []
      | d0 :: rest =>
        let sampleIntervalMs := sampleIntervalMin * 60 * 1000
        -- middle points: indices 1 .. length-2
        let middle := rest.dropLast
        let walk := middle.foldl
          (fun (st : List Row × ℚ) r =>
            if r.timeMs - st.2 ≥ sampleIntervalMs then (st.1 ++ [r], r.timeMs) else st)
          ([d0], d0.timeMs)
        let result := walk.1
        let lastSampledTime := walk.2
        let lastPoint := (d0 :: rest).getLast (by simp)
        if result.length > 1 ∧ lastPoint.timeMs - lastSampledTime < sampleIntervalMs / 2 then
          result.dropLast ++ [lastPoint]
        else
          result ++ [lastPoint]

/-! ## `fillMissingTimePoints` (localeUtils.ts lines 263-332) -/

/-- The grid loop `for (let t = start; t <= end; t += interval)
timePoints.push(t)`, written with explicit fuel. -/
def gridPtsAux (e interval : ℚ) : ℕ → ℚ → List ℚ
  | 0, _ => []
  | fuel + 1, t => if t ≤ e then t :: gridPtsAux e interval fuel (t + interval) else []

/-- The generated grid time points.  For `interval ≤ 0` the JS loop either
never runs (`start > end`) or never terminates; the pipeline only calls it
with positive intervals, and the guard returns `[]` in the degenerate case. -/
def gridPts (start e interval : ℚ) : List ℚ :=
  if 0 < interval then gridPtsAux e interval (⌊(e - start) / interval⌋ + 1).toNat start
  else []

/-- The cursor-advance loop
`while (dataIdx < timedData.length && timedData[dataIdx].timeMs < t - matchToleranceMs) dataIdx++`. -/
def advanceIdx (timed : List Row) (bound : ℚ) : ℕ → ℕ → ℕ
  | 0, i => i
  | fuel + 1, i =>
    match timed.get? i with
    | some r => if r.timeMs < bound then advanceIdx timed bound fuel (i + 1) else i
    | none => i

/-- The `timePoints.map(...)` body: the mutable `dataIdx` cursor is threaded
through the recursion.  A matched row keeps its values but is re-stamped to
the grid time; a miss produces the null template re-stamped likewise. -/
def fillLoop (timed : List Row) (tol : ℚ) : ℕ → List ℚ → List Row
  | _, [] => []
  | dataIdx, t :: ts =>
    let i := advanceIdx timed (t - tol) timed.length dataIdx
    let row : Row :=
      match timed.get? i with
      | some r =>
        if |r.timeMs - t| ≤ tol then { timeMs := t, vals := r.vals }
        else { timeMs := t, vals := fun _ => none }
      | none => { timeMs := t, vals := fun _ => none }
    row :: fillLoop timed tol i ts

/-- `fillMissingTimePoints(data, intervalSec, totalSeconds, matchToleranceSec)`.
`totalSeconds = none` models the JS `null` (variable-length mode); the JS
call-site defaults (`10`, `180`) are supplied by callers.  `createNullTemplate`
turns every numeric field into `null`, which for a `Row` is the all-`none`
assignment. -/
def fillMissingTimePoints (data : List Row) (intervalSec : ℚ)
    (totalSeconds : Option ℚ) (matchToleranceSec : Option ℚ) : List Row :=
  match data with
  | [] => []
  | d :: ds =>
    let timedData := (d :: ds).mergeSort (fun a b => decide (a.timeMs ≤ b.timeMs))
    let firstItem := timedData.head?.getD d
    let lastItem := timedData.getLast?.getD d
    let e := lastItem.timeMs
    let interval := intervalSec * 1000
    let start :=
      match totalSeconds with
      | some ts => if ts > 0 then e - ts * 1000 + interval else firstItem.timeMs
      | none => firstItem.timeMs
    let timePoints := gridPts start e interval
    let matchToleranceMs := (matchToleranceSec.getD intervalSec) * 1000
    fillLoop timedData matchToleranceMs 0 timePoints

theorem length_fillLoop (timed : List Row) (tol : ℚ) :
    ∀ (dataIdx : ℕ) (ts : List ℚ), (fillLoop timed tol dataIdx ts).length = ts.length := by
  intro dataIdx ts
  induction ts generalizing dataIdx with
  | nil => rfl
  | cons t ts ih => simp [fillLoop, ih]

theorem gridPtsAux_length (e interval : ℚ) (hI : 0 < interval) :
    ∀ (fuel : ℕ) (t : ℚ), (⌊(e - t) / interval⌋ + 1).toNat ≤ fuel →
      (gridPtsAux e interval fuel t).length =
        if t ≤ e then (⌊(e - t) / interval⌋).toNat + 1 else 0 := by
  intro fuel
  induction fuel with
  | zero =>
    intro t hfuel
    rw [if_neg]
    · rfl
    · intro hte
      have h0 : (0 : ℚ) ≤ (e - t) / interval :=
        div_nonneg (sub_nonneg.mpr hte) hI.le
      have h1 : (0 : ℤ) ≤ ⌊(e - t) / interval⌋ := Int.floor_nonneg.mpr h0
      omega
  | succ fuel ih =>
    intro t hfuel
    by_cases hte : t ≤ e
    · rw [if_pos hte]
      have hstep : (e - (t + interval)) / interval = (e - t) / interval - 1 := by
        field_simp
        ring
      have hfl : ⌊(e - (t + interval)) / interval⌋ = ⌊(e - t) / interval⌋ - 1 := by
        rw [hstep]
        exact_mod_cast Int.floor_sub_int ((e - t) / interval) 1
      simp only [gridPtsAux, if_pos hte, List.length_cons]
      rw [ih (t + interval) (by omega)]
      by_cases hnext : t + interval ≤ e
      · rw [if_pos hnext, hfl]
        have hge1 : (1 : ℤ) ≤ ⌊(e - t) / interval⌋ := by
          apply Int.le_floor.mpr
          rw [le_div_iff₀ hI]
          push_cast
          linarith
        omega
      · rw [if_neg hnext]
        have h0 : ⌊(e - t) / interval⌋ = 0 := by
          rw [Int.floor_eq_zero_iff]
          constructor
          · exact div_nonneg (sub_nonneg.mpr hte) hI.le
          · rw [div_lt_one hI]
            push_cast at hnext ⊢
            linarith [not_le.mp hnext]
        omega
    · rw [if_neg hte]
      simp [gridPtsAux, hte]

theorem gridPts_length (start e interval : ℚ) (hI : 0 < interval) :
    (gridPts start e interval).length =
      if start ≤ e then (⌊(e - start) / interval⌋).toNat + 1 else 0 := by
  rw [gridPts, if_pos hI]
  exact gridPtsAux_length e interval hI _ start le_rfl

/-! ## Stride downsampling (PingChart.tsx lines 169-176) -/

/-- The loop `for (let i = 0; i < full.length; i += samplingFactor)
sampledData.push(full[i])`.  `fuel` bounds the iteration count; since the
guard makes the factor at least `1`, `full.length` iterations always
suffice. -/
def sampleLoop {α : Type} (full : List α) (factor : ℕ) : ℕ → ℕ → List α
  | 0, _ => []
  | fuel + 1, i =>
    match full.get? i with
    | some x => x :: sampleLoop full factor fuel (i + factor)
    | none => []

/-- Lines 169-176 of `PingChart.tsx`: if `full.length > pingChartMaxPoints`
and `pingChartMaxPoints > 0`, keep every `Math.ceil(len / maxPoints)`-th
element starting at index 0; otherwise return the input unchanged. -/
def downsampleStep {α : Type} (full : List α) (maxPoints : ℚ) : List α :=
  if (full.length : ℚ) > maxPoints ∧ maxPoints > 0 then
    let samplingFactor := (⌈(full.length : ℚ) / maxPoints⌉).toNat
    sampleLoop full samplingFactor full.length 0
  else full

/-! ## Helper lemmas for the stride downsampler -/

theorem sampleLoop_length {α : Type} (full : List α) (f : ℕ) (hf : 1 ≤ f) :
    ∀ (fuel i : ℕ), full.length ≤ i + fuel →
      (sampleLoop full f fuel i).length = (full.length - i + f - 1) / f := by
  intro fuel
  induction fuel with
  | zero =>
    intro i hi
    have h0 : full.length - i = 0 := by omega
    simp only [sampleLoop, List.length_nil, h0]
    rw [Nat.div_eq_of_lt (by omega)]
  | succ fuel ih =>
    intro i hi
    cases h : full.get? i with
    | none =>
      have hlen : full.length ≤ i := by
        simpa using List.get?_eq_none.mp h
      have h0 : full.length - i = 0 := by omega
      simp only [sampleLoop, h, List.length_nil, h0]
      have : f - 1 < f := by omega
      simp [Nat.div_eq_of_lt this]
    | some x =>
      have hlt : i < full.length := by
        by_contra hge
        rw [List.get?_eq_none.mpr (by omega)] at h
        exact Option.noConfusion h
      have hrec := ih (i + f) (by omega)
      simp only [sampleLoop, h, List.length_cons, hrec]
      rcases Nat.lt_or_ge (full.length - i) f with hcase | hcase
      · -- remaining < f : exactly one more element
        have h1 : full.length - (i + f) = 0 := by omega
        rw [h1]
        have hzero : (0 + f - 1) / f = 0 := Nat.div_eq_of_lt (by omega)
        have hone : (full.length - i + f - 1) / f = 1 :=
          Nat.div_eq_of_lt_le (by omega) (by omega)
        rw [hzero, hone]
      · -- remaining ≥ f
        have e1 : full.length - (i + f) + f - 1 = full.length - i - 1 := by omega
        have e2 : full.length - i + f - 1 = (full.length - i - 1) + f := by omega
        rw [e1, e2, Nat.add_div_right _ (by omega)]

theorem sampleLoop_head {α : Type} (full : List α) (f fuel : ℕ) (hne : full ≠ []) :
    (sampleLoop full f (fuel + 1) 0).head? = full.head? := by
  cases full with
  | nil => exact absurd rfl hne
  | cons a as => rfl

/-- **C5 (counterexample).**  The claim states that for every `maxPoints > 0`
the stride-downsampling step produces an output of length at most
`maxPoints`.  `maxPoints` is a plain JS number, so fractional budgets are
admitted; with input `[0, 1, 2]` and `maxPoints = 3/2` the code takes the
sampling branch (`3 > 3/2`), computes `factor = ceil(3 / (3/2)) = 2` and
keeps indices `0` and `2`: the output has length `2`, which exceeds `3/2`. -/
theorem downsampleStep_budget_cex :
    downsampleStep ([0, 1, 2] : List ℕ) (3 / 2) = [0, 2] ∧
    ¬ (((downsampleStep ([0, 1, 2] : List ℕ) (3 / 2)).length : ℚ) ≤ 3 / 2) := by
  have e : downsampleStep ([0, 1, 2] : List ℕ) (3 / 2) = [0, 2] := by
    norm_num [downsampleStep, sampleLoop]
    decide
  refine ⟨e, ?_⟩
  intro h
  rw [e] at h
  norm_num at h

/-- **C5 (amended).**  For every input array and every `maxPoints > 0` the
stride-downsampling step keeps the first element and produces at most
`⌈maxPoints⌉` elements — hence at most `maxPoints` whenever `maxPoints` is a
natural number, which is the shape every real configuration uses; for
`maxPoints ≤ 0` the step is bypassed and the output equals the input. -/
theorem downsampleStep_budget {α : Type} (full : List α) (maxPoints : ℚ) :
    (0 < maxPoints →
      ((downsampleStep full maxPoints).length : ℚ) ≤ (⌈maxPoints⌉ : ℚ) ∧
      (downsampleStep full maxPoints).head? = full.head? ∧
      (∀ n : ℕ, maxPoints = (n : ℚ) → (downsampleStep full maxPoints).length ≤ n)) ∧
    (maxPoints ≤ 0 → downsampleStep full maxPoints = full) := by
  constructor
  · intro hpos
    by_cases hgt : (full.length : ℚ) > maxPoints
    · -- sampling branch
      have hcond : (full.length : ℚ) > maxPoints ∧ maxPoints > 0 := ⟨hgt, hpos⟩
      have hratio : (1 : ℚ) < (full.length : ℚ) / maxPoints :=
        (one_lt_div hpos).mpr hgt
      have hceil1 : (1 : ℤ) < ⌈(full.length : ℚ) / maxPoints⌉ :=
        Int.lt_ceil.mpr (by exact_mod_cast hratio)
      set f : ℕ := (⌈(full.length : ℚ) / maxPoints⌉).toNat with hfdef
      have hf1 : 1 ≤ f := by omega
      have hout : downsampleStep full maxPoints = sampleLoop full f full.length 0 := by
        simp only [downsampleStep, if_pos hcond]
      have hlenfull : 1 ≤ full.length := by
        by_contra hc
        have h0 : full.length = 0 := by omega
        rw [h0] at hgt
        push_cast at hgt
        linarith
      have hlen : (downsampleStep full maxPoints).length = (full.length + f - 1) / f := by
        rw [hout, sampleLoop_length full f hf1 full.length 0 (by omega)]
        norm_num
      -- `full.length ≤ ⌈maxPoints⌉.toNat * f`
      have hcpos : (0 : ℤ) < ⌈maxPoints⌉ := Int.ceil_pos.mpr hpos
      set c : ℕ := (⌈maxPoints⌉).toNat with hcdef
      have hcQ : (c : ℚ) = (⌈maxPoints⌉ : ℚ) := by
        rw [hcdef]
        exact_mod_cast Int.toNat_of_nonneg (le_of_lt hcpos)
      have hfQ : ((full.length : ℚ)) ≤ (f : ℚ) * maxPoints := by
        have h1 : (full.length : ℚ) / maxPoints ≤ ((⌈(full.length : ℚ) / maxPoints⌉ : ℤ) : ℚ) :=
          Int.le_ceil _
        have h2 : ((⌈(full.length : ℚ) / maxPoints⌉ : ℤ) : ℚ) = (f : ℚ) := by
          rw [hfdef]
          exact_mod_cast (Int.toNat_of_nonneg
            (by omega : (0 : ℤ) ≤ ⌈(full.length : ℚ) / maxPoints⌉)).symm
        rw [h2] at h1
        exact (div_le_iff₀ hpos).mp h1
      have hnc : full.length ≤ c * f := by
        have hQ : ((full.length : ℚ)) ≤ (c : ℚ) * (f : ℚ) := by
          calc (full.length : ℚ) ≤ (f : ℚ) * maxPoints := hfQ
            _ ≤ (f : ℚ) * (c : ℚ) := by
                apply mul_le_mul_of_nonneg_left _ (by positivity)
                rw [hcQ]; exact Int.le_ceil maxPoints
            _ = (c : ℚ) * (f : ℚ) := by ring
        exact_mod_cast hQ
      have hdiv : (full.length + f - 1) / f ≤ c := by
        have h1 : full.length + f - 1 ≤ c * f + (f - 1) := by omega
        calc (full.length + f - 1) / f ≤ (c * f + (f - 1)) / f :=
              Nat.div_le_div_right h1
          _ = c + (f - 1) / f := by
              rw [Nat.mul_comm c f, Nat.mul_add_div (by omega)]
          _ = c := by rw [Nat.div_eq_of_lt (by omega)]; omega
      refine ⟨?_, ?_, ?_⟩
      · rw [hlen, ← hcQ]
        exact_mod_cast hdiv
      · rw [hout]
        cases hL : full.length with
        | zero => omega
        | succ L =>
          exact sampleLoop_head full f L (by intro hnil; rw [hnil] at hL; simp at hL)
      · intro n hn
        have hcn : c = n := by
          rw [hcdef, hn, Int.ceil_natCast]
          exact Int.toNat_natCast n
        rw [← hcn]
        omega
    · -- bypass branch: `full.length ≤ maxPoints`
      have hout : downsampleStep full maxPoints = full := by
        simp only [downsampleStep]
        rw [if_neg]
        intro hc
        exact hgt hc.1
      refine ⟨?_, by rw [hout], ?_⟩
      · rw [hout]
        calc ((full.length : ℚ)) ≤ maxPoints := not_lt.mp hgt
          _ ≤ (⌈maxPoints⌉ : ℚ) := Int.le_ceil maxPoints
      · intro n hn
        rw [hout]
        have : (full.length : ℚ) ≤ (n : ℚ) := by rw [← hn]; exact not_lt.mp hgt
        exact_mod_cast this
  · intro hnonpos
    simp only [downsampleStep]
    rw [if_neg]
    intro hc
    linarith [hc.2]

/-- **C5 (witness).** -/
theorem downsampleStep_budget_witness :
    ((0 : ℚ) < 5 ∧
      (((downsampleStep ([0, 1, 2, 3, 4, 5, 6] : List ℕ) 5).length : ℚ) ≤ (⌈(5 : ℚ)⌉ : ℚ) ∧
        (downsampleStep ([0, 1, 2, 3, 4, 5, 6] : List ℕ) 5).head? = ([0, 1, 2, 3, 4, 5, 6] : List ℕ).head? ∧
        (∀ n : ℕ, (5 : ℚ) = (n : ℚ) →
          (downsampleStep ([0, 1, 2, 3, 4, 5, 6] : List ℕ) 5).length ≤ n))) ∧
    ((-2 : ℚ) ≤ 0 ∧ downsampleStep ([0, 1, 2] : List ℕ) (-2) = [0, 1, 2]) :=
  ⟨⟨by norm_num, (downsampleStep_budget ([0, 1, 2, 3, 4, 5, 6] : List ℕ) 5).1 (by norm_num)⟩,
   ⟨by norm_num, (downsampleStep_budget ([0, 1, 2] : List ℕ) (-2)).2 (by norm_num)⟩⟩

/-- **C2 (counterexample).**  The claim states that `calculateTaskStats`
returns the loss rate rounded to 1 decimal place (`33.3` on the three-record
example).  The code computes `(1 - successCount/totalCount) * 100` and
returns it unrounded (rounding happens only in the display layer via
`toFixed(1)`): on the example the result is `100/3 = 33.33…`, not `33.3`. -/
theorem calculateTaskStats_rounding_cex :
    calculateTaskStats [⟨0, 1, 10⟩, ⟨1000, 1, -1⟩, ⟨2000, 1, 20⟩] 1 none =
      ⟨100 / 3, some 20, some 2000⟩ ∧
    (calculateTaskStats [⟨0, 1, 10⟩, ⟨1000, 1, -1⟩, ⟨2000, 1, 20⟩] 1 none).loss ≠ 333 / 10 := by
  have e : calculateTaskStats [⟨0, 1, 10⟩, ⟨1000, 1, -1⟩, ⟨2000, 1, 20⟩] 1 none =
      ⟨100 / 3, some 20, some 2000⟩ := by
    norm_num [calculateTaskStats, taskRecordsOf, relevantRecordsOf, latestOf, List.filter_cons]
  refine ⟨e, ?_⟩
  rw [e]
  norm_num

/-- **C2 (amended).**  `calculateTaskStats` returns the exact, unrounded loss
rate `(1 - successCount/totalCount) * 100` where success means `value ≥ 0`
(display code rounds to one decimal separately); with `timeRange = null`
over `[{t0, task 1, v 10}, {t1, task 1, v -1}, {t2, task 1, v 20}]` and
`t0 < t1 < t2` it returns `loss = 100/3`, `latestValue = 20`,
`latestTime = t2`. -/
theorem calculateTaskStats_unrounded (t0 t1 t2 : ℚ) (h01 : t0 < t1) (h12 : t1 < t2) :
    calculateTaskStats [⟨t0, 1, 10⟩, ⟨t1, 1, -1⟩, ⟨t2, 1, 20⟩] 1 none =
      ⟨(1 - 2 / 3) * 100, some 20, some t2⟩ := by
  have h02 : t0 < t2 := lt_trans h01 h12
  norm_num [calculateTaskStats, taskRecordsOf, relevantRecordsOf, latestOf, List.filter_cons, h02]

/-- **C2 (witness).** -/
theorem calculateTaskStats_unrounded_witness :
    (0 : ℚ) < 1 ∧ (1 : ℚ) < 2 ∧
    calculateTaskStats [⟨0, 1, 10⟩, ⟨1, 1, -1⟩, ⟨2, 1, 20⟩] 1 none =
      ⟨(1 - 2 / 3) * 100, some 20, some 2⟩ :=
  ⟨by norm_num, by norm_num,
    calculateTaskStats_unrounded 0 1 2 (by norm_num) (by norm_num)⟩

/-- **C6 (confirmed).**  `sampleDataByRetention` selects its sampling
interval from the lookup table `sampleInterval`; the `retentionHours ≤ 72`
boundary is inclusive (1 min for the main chart, 5 min for the mini chart)
and `73` hours already selects the next tier (15 min main, 30 min mini). -/
theorem sampleInterval_boundary_72 :
    sampleInterval 72 false = 1 ∧ sampleInterval 72 true = 5 ∧
    sampleInterval 73 false = 15 ∧ sampleInterval 73 true = 30 := by
  norm_num [sampleInterval]

/-- **C1 (amended, helper-free statement below).**  In fixed-length mode the
start of the grid is `end - totalSeconds*1000 + interval`, so the grid spans
the half-open window `(end - totalSeconds*1000, end]`: the output length is
exactly `⌊totalSeconds / intervalSec⌋`, not `⌊totalSeconds / intervalSec⌋ + 1`. -/
theorem fillMissingTimePoints_fixed_length (data : List Row)
    (intervalSec totalSeconds : ℚ) (mt : Option ℚ)
    (hne : data ≠ []) (hI : 0 < intervalSec) (hT : 0 < totalSeconds) :
    (fillMissingTimePoints data intervalSec (some totalSeconds) mt).length =
      (⌊totalSeconds / intervalSec⌋).toNat := by
  cases data with
  | nil => exact absurd rfl hne
  | cons d ds =>
    have hI' : (0 : ℚ) < intervalSec * 1000 := by positivity
    simp only [fillMissingTimePoints, if_pos hT]
    rw [length_fillLoop, gridPts_length _ _ _ hI']
    set e : ℚ := (((d :: ds).mergeSort fun a b => decide (a.timeMs ≤ b.timeMs)).getLast?.getD d).timeMs with he
    have harg : e - (e - totalSeconds * 1000 + intervalSec * 1000) =
        totalSeconds * 1000 - intervalSec * 1000 := by ring
    have hdiv : (totalSeconds * 1000 - intervalSec * 1000) / (intervalSec * 1000) =
        totalSeconds / intervalSec - 1 := by
      field_simp
      ring
    rw [harg, hdiv]
    have hfl : ⌊totalSeconds / intervalSec - 1⌋ = ⌊totalSeconds / intervalSec⌋ - 1 := by
      exact_mod_cast Int.floor_sub_int (totalSeconds / intervalSec) 1
    by_cases hc : e - totalSeconds * 1000 + intervalSec * 1000 ≤ e
    · rw [if_pos hc, hfl]
      have hge1 : (1 : ℤ) ≤ ⌊totalSeconds / intervalSec⌋ := by
        apply Int.le_floor.mpr
        rw [le_div_iff₀ hI]
        push_cast
        linarith
      omega
    · rw [if_neg hc]
      have hlt : totalSeconds < intervalSec := by
        by_contra hge
        exact hc (by linarith [not_lt.mp hge])
      have h0 : ⌊totalSeconds / intervalSec⌋ = 0 := by
        rw [Int.floor_eq_zero_iff]
        exact ⟨div_nonneg hT.le hI.le, (div_lt_one hI).mpr hlt⟩
      omega

/-- **C1 (witness).** -/
theorem fillMissingTimePoints_fixed_length_witness :
    ([⟨5, fun _ => none⟩] : List Row) ≠ [] ∧ (0 : ℚ) < 7 ∧ (0 : ℚ) < 9 ∧
    (fillMissingTimePoints [⟨5, fun _ => none⟩] 7 (some 9) none).length =
      (⌊(9 : ℚ) / 7⌋).toNat :=
  ⟨by simp, by norm_num, by norm_num,
    fillMissingTimePoints_fixed_length _ 7 9 none (by simp) (by norm_num) (by norm_num)⟩

/-- **C1 (counterexample).**  The claim predicts
`⌊totalSeconds/intervalSec⌋ + 1` grid rows.  For a single sample at `t = 0`,
`intervalSec = 10`, `totalSeconds = 180` the code generates the grid
`-170000, -160000, …, 0` — `18 = ⌊180/10⌋` points, not `19`. -/
theorem fillMissingTimePoints_length_cex :
    (fillMissingTimePoints [⟨0, fun _ => none⟩] 10 (some 180) none).length = 18 ∧
    (18 : ℕ) ≠ (⌊(180 : ℚ) / 10⌋).toNat + 1 := by
  constructor
  · have hmerge : ([⟨0, fun _ => none⟩] : List Row).mergeSort
        (fun a b => decide (a.timeMs ≤ b.timeMs)) = [⟨0, fun _ => none⟩] := by simp
    simp only [fillMissingTimePoints, hmerge]
    norm_num
    rw [length_fillLoop, gridPts_length _ _ _ (by norm_num)]
    norm_num
    decide
  · have : (⌊(180 : ℚ) / 10⌋ : ℤ) = 18 := by norm_num
    rw [this]
    decide

/-! ## Time-bucket merge (`midData` of PingChart.tsx, lines 75-130)

Bucket rows are JS objects whose cells can be absent (`undefined`),
explicitly `null`, or numeric — a three-state `Cell`. -/

inductive Cell where
  | undef : Cell
  | null : Cell
  | val : ℚ → Cell
  deriving DecidableEq

structure BRow where
  time : ℚ
  vals : ℕ → Cell

/-- A raw ping-history record. -/
structure RawRec where
  timeMs : ℚ
  task_id : ℕ
  value : ℚ

/-- `for (const a of anchors) if (Math.abs(a - ts) <= toleranceMs) break`:
the first anchor (in insertion order) within tolerance of the timestamp. -/
def findAnchor (anchors : List ℚ) (ts τ : ℚ) : Option ℚ :=
  anchors.find? (fun a => decide (|a - ts| ≤ τ))

structure BucketState where
  grouped : List (ℚ × BRow)
  anchors : List ℚ

def lookupGroup (g : List (ℚ × BRow)) (use : ℚ) : Option BRow :=
  (g.find? (fun p => decide (p.1 = use))).map Prod.snd

/-- `grouped[use][rec.task_id] = cell`. -/
def setGroupCell (g : List (ℚ × BRow)) (use : ℚ) (tid : ℕ) (c : Cell) :
    List (ℚ × BRow) :=
  g.map (fun p =>
    if p.1 = use then
      (p.1, { p.2 with vals := fun k => if k = tid then c else p.2.vals k })
    else p)

/-- One iteration of the `for (const rec of data)` merge loop
(PingChart.tsx lines 93-108): find the first anchor within tolerance, else
use the record's own timestamp; create the row (and push the anchor) if
missing; store `rec.value < 0 ? null : rec.value` under the task id. -/
def bucketStep (τ : ℚ) (st : BucketState) (r : RawRec) : BucketState :=
  let ts := r.timeMs
  let anchor := findAnchor st.anchors ts τ
  let use := anchor.getD ts
  let st1 : BucketState :=
    match lookupGroup st.grouped use with
    | some _ => st
    | none =>
      { grouped := st.grouped ++ [(use, { time := use, vals := fun _ => Cell.undef })],
        anchors := if anchor = none then st.anchors ++ [use] else st.anchors }
  { st1 with
    grouped := setGroupCell st1.grouped use r.task_id
      (if r.value < 0 then Cell.null else Cell.val r.value) }

def bucketFold (records : List RawRec) (τ : ℚ) : BucketState :=
  records.foldl (bucketStep τ) ⟨[], []⟩

/-- `Object.values(grouped).sort((a, b) => time(a) - time(b))`. -/
def mergeRecords (records : List RawRec) (τ : ℚ) : List BRow :=
  ((bucketFold records τ).grouped.map Prod.snd).mergeSort
    (fun a b => decide (a.time ≤ b.time))

/-- `Math.min(...taskIntervals)` over the positive declared intervals, `60`
when none exist (PingChart.tsx lines 80-85). -/
def fallbackIntervalSec (taskIntervals : List ℚ) : ℚ :=
  match taskIntervals.filter (fun v => decide (0 < v)) with
  | [] => 60
  | h :: t => t.foldl min h

/-- `Math.min(6000, Math.max(800, Math.floor(fallbackIntervalSec * 1000 * 0.25)))`
(PingChart.tsx lines 87-90). -/
def toleranceMs (taskIntervals : List ℚ) : ℚ :=
  min 6000 (max 800 ((⌊fallbackIntervalSec taskIntervals * 1000 * (1 / 4)⌋ : ℤ) : ℚ))

/-! ### Bucket-merge invariants -/

/-- The group keys and the anchor list contain the same timestamps. -/
def KeysMatchAnchors (st : BucketState) : Prop :=
  ∀ x : ℚ, x ∈ st.grouped.map Prod.fst ↔ x ∈ st.anchors

theorem fst_setGroupCell (g : List (ℚ × BRow)) (u : ℚ) (tid : ℕ) (c : Cell) :
    (setGroupCell g u tid c).map Prod.fst = g.map Prod.fst := by
  unfold setGroupCell
  rw [List.map_map]
  apply List.map_congr_left
  intro p _
  by_cases hu : p.1 = u <;> simp [hu]

theorem keysMatchAnchors_step (τ : ℚ) (st : BucketState) (r : RawRec)
    (h : KeysMatchAnchors st) : KeysMatchAnchors (bucketStep τ st r) := by
  intro x
  unfold bucketStep
  cases hl : lookupGroup st.grouped ((findAnchor st.anchors r.timeMs τ).getD r.timeMs) with
  | some row0 =>
    simp only [hl]
    rw [fst_setGroupCell]
    exact h x
  | none =>
    simp only [hl]
    rw [fst_setGroupCell]
    cases ha : findAnchor st.anchors r.timeMs τ with
    | some a =>
      have haa : a ∈ st.anchors := List.mem_of_find?_eq_some ha
      simp only [ha, Option.getD_some, reduceCtorEq, if_neg, List.map_append,
        List.map_cons, List.map_nil, List.mem_append, List.mem_singleton]
      constructor
      · rintro (hx | hx)
        · exact (h x).mp hx
        · exact hx ▸ haa
      · intro hx
        exact Or.inl ((h x).mpr hx)
    | none =>
      simp only [ha, Option.getD_none, if_true]
      simp only [List.map_append, List.map_cons, List.map_nil, List.mem_append,
        List.mem_singleton]
      constructor
      · rintro (hx | hx)
        · exact Or.inl ((h x).mp hx)
        · exact Or.inr hx
      · rintro (hx | hx)
        · exact Or.inl ((h x).mpr hx)
        · exact Or.inr hx

theorem keysMatchAnchors_fold (records : List RawRec) (τ : ℚ) :
    KeysMatchAnchors (bucketFold records τ) := by
  have hgen : ∀ (l : List RawRec) (st : BucketState), KeysMatchAnchors st →
      KeysMatchAnchors (l.foldl (bucketStep τ) st) := by
    intro l
    induction l with
    | nil => intro st h; exact h
    | cons r l ih => intro st h; exact ih _ (keysMatchAnchors_step τ st r h)
  exact hgen records ⟨[], []⟩ (by intro x; simp [KeysMatchAnchors])

theorem lookupGroup_isSome_of_mem_keys (g : List (ℚ × BRow)) (u : ℚ)
    (h : u ∈ g.map Prod.fst) : lookupGroup g u ≠ none := by
  rcases List.mem_map.mp h with ⟨p, hp, hpe⟩
  intro hnone
  have := List.find?_eq_none.mp (by
    unfold lookupGroup at hnone
    exact Option.map_eq_none.mp hnone) p hp
  simp [hpe] at this

/-- **C8 (confirmed).**  Processing one more record extends the anchor list
iff no existing anchor lies within tolerance `τ` of its timestamp
(`findAnchor` scans anchors in insertion order, so the *first* match wins),
in which case the new anchor is the record's own timestamp; concretely,
samples at `t = 0` and `t = 4000` merge into the single anchor `0` under
`τ = 5000` and produce the two anchors `0, 4000` under `τ = 3000`. -/
theorem bucketMerge_anchor_assignment :
    (∀ (recs : List RawRec) (r : RawRec) (τ : ℚ), 0 ≤ τ →
      (bucketFold (recs ++ [r]) τ).anchors =
        if (findAnchor (bucketFold recs τ).anchors r.timeMs τ).isSome then
          (bucketFold recs τ).anchors
        else (bucketFold recs τ).anchors ++ [r.timeMs]) ∧
    (bucketFold [⟨0, 1, 5⟩, ⟨4000, 1, 7⟩] 5000).anchors = [0] ∧
    (bucketFold [⟨0, 1, 5⟩, ⟨4000, 1, 7⟩] 3000).anchors = [0, 4000] ∧
    (mergeRecords [⟨0, 1, 5⟩, ⟨4000, 1, 7⟩] 5000).length = 1 ∧
    (mergeRecords [⟨0, 1, 5⟩, ⟨4000, 1, 7⟩] 3000).length = 2 := by
  refine ⟨?_, ?_, ?_, ?_, ?_⟩
  · intro recs r τ hτ
    have hstep : bucketFold (recs ++ [r]) τ = bucketStep τ (bucketFold recs τ) r := by
      unfold bucketFold
      rw [List.foldl_append]
      rfl
    rw [hstep]
    set st := bucketFold recs τ with hst
    have hinv : KeysMatchAnchors st := keysMatchAnchors_fold recs τ
    unfold bucketStep
    cases ha : findAnchor st.anchors r.timeMs τ with
    | some a =>
      simp only [ha, Option.isSome_some, if_true, Option.getD_some]
      cases hl : lookupGroup st.grouped a with
      | some row0 => simp [hl]
      | none => simp [hl]
    | none =>
      simp only [ha, Option.isSome_none, Bool.false_eq_true, if_false, Option.getD_none]
      cases hl : lookupGroup st.grouped r.timeMs with
      | some row0 =>
        exfalso
        have hkey : r.timeMs ∈ st.grouped.map Prod.fst := by
          rcases Option.map_eq_some'.mp hl with ⟨q, hq, _⟩
          have hq2 := List.find?_some hq
          have hqfst : q.1 = r.timeMs := by simpa using hq2
          exact List.mem_map.mpr ⟨q, List.mem_of_find?_eq_some hq, hqfst⟩
        have hanch : r.timeMs ∈ st.anchors := (hinv r.timeMs).mp hkey
        have hnone := List.find?_eq_none.mp ha r.timeMs hanch
        have hno : ¬ (|r.timeMs - r.timeMs| ≤ τ) := by simpa using hnone
        exact hno (by simpa using hτ)
      | none => simp [hl]
  · norm_num [bucketFold, bucketStep, findAnchor, lookupGroup, setGroupCell,
      List.find?, abs, max_def]
  · norm_num [bucketFold, bucketStep, findAnchor, lookupGroup, setGroupCell,
      List.find?, abs, max_def]
  · rw [mergeRecords, List.length_mergeSort, List.length_map]
    norm_num [bucketFold, bucketStep, findAnchor, lookupGroup, setGroupCell,
      List.find?, abs, max_def]
  · rw [mergeRecords, List.length_mergeSort, List.length_map]
    norm_num [bucketFold, bucketStep, findAnchor, lookupGroup, setGroupCell,
      List.find?, abs, max_def]

/-- **C8 (witness).** -/
theorem bucketMerge_anchor_assignment_witness :
    (0 : ℚ) ≤ 0 ∧
    (bucketFold ([] ++ [⟨0, 1, 5⟩]) 0).anchors =
      (if (findAnchor (bucketFold [] 0).anchors (RawRec.mk 0 1 5).timeMs 0).isSome then
        (bucketFold ([] : List RawRec) 0).anchors
      else (bucketFold ([] : List RawRec) 0).anchors ++ [(RawRec.mk 0 1 5).timeMs]) :=
  ⟨le_refl 0, bucketMerge_anchor_assignment.1 [] ⟨0, 1, 5⟩ 0 (le_refl 0)⟩

/-- **C7 (counterexample).**  The claim says the bucketed cell corresponding
to a `value = -1` sample is `null`.  Cells are keyed `grouped[use][task_id]`
and a *later* sample of the same task merged into the same anchor overwrites
the cell: with records `(t=0, task 1, v=-1)` and `(t=1000, task 1, v=7)` and
tolerance `5000` (reachable: task interval 20 s), the single bucketed row
holds `7` for task 1 — neither `null` nor `-1`. -/
theorem bucketMerge_sentinel_cex :
    (mergeRecords [⟨0, 1, -1⟩, ⟨1000, 1, 7⟩] 5000).map (fun row => row.vals 1) =
      [Cell.val 7] ∧ Cell.val 7 ≠ Cell.null := by
  constructor
  · rw [mergeRecords]
    have hfold : (bucketFold [⟨0, 1, -1⟩, ⟨1000, 1, 7⟩] 5000).grouped.map Prod.snd =
        [{ time := 0, vals := fun k => if k = 1 then Cell.val 7 else
            (fun k' => if k' = 1 then Cell.null else Cell.undef) k }] := by
      norm_num [bucketFold, bucketStep, findAnchor, lookupGroup, setGroupCell,
        List.find?, abs, max_def]
    rw [hfold]
    simp
  · simp

/-- Cells written by the merge loop are `null` for negative sample values
and the raw value otherwise, so no stored numeric cell is negative. -/
def CellsOK (g : List (ℚ × BRow)) : Prop :=
  ∀ p ∈ g, ∀ (k : ℕ) (q : ℚ), (p : ℚ × BRow).2.vals k = Cell.val q → 0 ≤ q

theorem cellsOK_setGroupCell (g : List (ℚ × BRow)) (u : ℚ) (tid : ℕ) (c : Cell)
    (hg : CellsOK g) (hc : ∀ q : ℚ, c = Cell.val q → 0 ≤ q) :
    CellsOK (setGroupCell g u tid c) := by
  intro p hp k q hval
  rcases List.mem_map.mp hp with ⟨p0, hp0, hpe⟩
  by_cases hu : p0.1 = u
  · rw [if_pos hu] at hpe
    rw [← hpe] at hval
    simp only at hval
    by_cases hk : k = tid
    · rw [if_pos hk] at hval
      exact hc q hval
    · rw [if_neg hk] at hval
      exact hg p0 hp0 k q hval
  · rw [if_neg hu] at hpe
    exact hg p0 hp0 k q (hpe ▸ hval)

theorem cellsOK_bucketStep (τ : ℚ) (st : BucketState) (r : RawRec)
    (h : CellsOK st.grouped) : CellsOK (bucketStep τ st r).grouped := by
  unfold bucketStep
  cases hl : lookupGroup st.grouped ((findAnchor st.anchors r.timeMs τ).getD r.timeMs) with
  | some row0 =>
    simp only [hl]
    apply cellsOK_setGroupCell _ _ _ _ h
    intro q hq
    by_cases hneg : r.value < 0
    · rw [if_pos hneg] at hq
      exact absurd hq (by simp)
    · rw [if_neg hneg] at hq
      have : r.value = q := by injection hq
      linarith [not_lt.mp hneg, this ▸ not_lt.mp hneg]
  | none =>
    simp only [hl]
    apply cellsOK_setGroupCell
    · intro p hp k q hval
      rcases List.mem_append.mp hp with hp | hp
      · exact h p hp k q hval
      · simp only [List.mem_singleton] at hp
        rw [hp] at hval
        exact absurd hval (by simp)
    · intro q hq
      by_cases hneg : r.value < 0
      · rw [if_pos hneg] at hq
        exact absurd hq (by simp)
      · rw [if_neg hneg] at hq
        have he : r.value = q := by injection hq
        exact he ▸ not_lt.mp hneg

/-- **C7 (amended).**  Every numeric cell of the bucketed output is
non-negative — in particular no cell ever holds `-1`: a `value = -1` sample
stores `null`, and the only way its cell ends up non-null is a later
non-negative sample of the same task overwriting it in the same anchor row. -/
theorem bucketMerge_cells_nonneg (records : List RawRec) (τ : ℚ) :
    ∀ row ∈ mergeRecords records τ, ∀ (k : ℕ) (q : ℚ),
      row.vals k = Cell.val q → 0 ≤ q := by
  have hfold : CellsOK (bucketFold records τ).grouped := by
    have hgen : ∀ (l : List RawRec) (st : BucketState), CellsOK st.grouped →
        CellsOK ((l.foldl (bucketStep τ) st).grouped) := by
      intro l
      induction l with
      | nil => intro st h; exact h
      | cons r l ih => intro st h; exact ih _ (cellsOK_bucketStep τ st r h)
    exact hgen records ⟨[], []⟩ (by intro p hp; simp at hp)
  intro row hrow k q hval
  have hmem : row ∈ (bucketFold records τ).grouped.map Prod.snd :=
    List.mem_mergeSort.mp hrow
  rcases List.mem_map.mp hmem with ⟨p, hp, hpe⟩
  exact hfold p hp k q (hpe ▸ hval)

/-- **C7 (witness).** -/
theorem bucketMerge_cells_nonneg_witness :
    (BRow.mk 0 (fun k => if k = 1 then Cell.val 5 else Cell.undef)) ∈
        mergeRecords [⟨0, 1, 5⟩] 0 ∧
    (BRow.mk 0 (fun k => if k = 1 then Cell.val 5 else Cell.undef)).vals 1 = Cell.val 5 ∧
    (0 : ℚ) ≤ 5 := by
  have hlist : mergeRecords [⟨0, 1, 5⟩] 0 =
      [BRow.mk 0 (fun k => if k = 1 then Cell.val 5 else Cell.undef)] := by
    norm_num [mergeRecords, bucketFold, bucketStep, findAnchor, lookupGroup,
      setGroupCell, List.find?]
  refine ⟨by rw [hlist]; exact List.mem_singleton.mpr rfl, by simp, ?_⟩
  exact bucketMerge_cells_nonneg [⟨0, 1, 5⟩] 0 _
    (by rw [hlist]; exact List.mem_singleton.mpr rfl) 1 5 (by simp)

/-! ## `interpolateNullsLinear` (localeUtils.ts lines 339-424)

The `options` argument may be a bare number (legacy) or an options object;
the bare number form is `{ maxGapMs := some n }`. -/

structure InterpOptions where
  maxGapMs : Option ℚ := none
  maxGapMultiplier : Option ℚ := none
  minCapMs : Option ℚ := none
  maxCapMs : Option ℚ := none

/-- Indices whose cell for `key` holds a finite number
(`typeof v === "number" && Number.isFinite(v)`). -/
def validIdx (rows : List Row) (key : ℕ) : List ℕ :=
  (List.range rows.length).filter (fun i => (rowVal rows i key).isSome)

/-- Timestamp deltas between consecutive valid samples (kept only when
`t1 > t0`; all model times are finite). -/
def keyGaps (rows : List Row) (key : ℕ) : List ℚ :=
  ((validIdx rows key).zip (validIdx rows key).tail).filterMap
    (fun p =>
      if rowTime rows p.1 < rowTime rows p.2 then some (rowTime rows p.2 - rowTime rows p.1)
      else none)

/-- The per-key interpolation cap: the unified `maxGapMs` when supplied,
otherwise `clamp(median_gap * multiplier, minCap, maxCap)` (defaults
multiplier 6, minCap 2 min, maxCap 30 min); `none` when no usable gaps
exist (the key is then skipped). -/
def capForKey (rows : List Row) (key : ℕ) (opts : InterpOptions) : Option ℚ :=
  match opts.maxGapMs with
  | some g => some g
  | none =>
    let gaps := keyGaps rows key
    if gaps.isEmpty then none
    else
      let sorted := gaps.mergeSort (fun a b => decide (a ≤ b))
      some (clamp (sorted.getD (sorted.length / 2) 0 * (opts.maxGapMultiplier.getD 6))
        (opts.minCapMs.getD 120000) (opts.maxCapMs.getD 1800000))

/-- `v0 + (v1 - v0) * (tj - t0) / (t1 - t0)`. -/
def lerpVal (t0 t1 v0 v1 tj : ℚ) : ℚ := v0 + (v1 - v0) * ((tj - t0) / (t1 - t0))

/-- The body of the consecutive-valid-pair loop: times not increasing or a
non-numeric endpoint or a gap wider than a non-zero cap ⇒ `continue`
(a cap of `0` is falsy in JS and disables the gap check); otherwise fill
indices `i0+1 … i1-1` with the linear interpolation. -/
def interpPairStep (orig : List Row) (key : ℕ) (g : ℚ) (out : List Row)
    (i0 i1 : ℕ) : List Row :=
  let t0 := rowTime orig i0
  let t1 := rowTime orig i1
  if t1 ≤ t0 then out
  else
    match rowVal orig i0 key, rowVal orig i1 key with
    | some v0, some v1 =>
      if g ≠ 0 ∧ t1 - t0 > g then out
      else
        (List.range' (i0 + 1) (i1 - (i0 + 1))).foldl
          (fun acc j => setCell acc j key (some (lerpVal t0 t1 v0 v1 (rowTime orig j)))) out
    | _, _ => out

/-- `for (let s = 0; s < validIdx.length - 1; s++)` over consecutive pairs. -/
def interpChain (orig : List Row) (key : ℕ) (g : ℚ) : List ℕ → List Row → List Row
  | i0 :: i1 :: rest, out =>
    interpChain orig key g (i1 :: rest) (interpPairStep orig key g out i0 i1)
  | _, out => out

def interpKey (orig : List Row) (opts : InterpOptions) (out : List Row) (key : ℕ) :
    List Row :=
  let vIdx := validIdx orig key
  if vIdx.length < 2 then out
  else
    match capForKey orig key opts with
    | none => out
    | some g => interpChain orig key g vIdx out

def interpolateNullsLinear (rows : List Row) (keys : List ℕ) (opts : InterpOptions) :
    List Row :=
  if rows.length = 0 ∨ keys.length = 0 then rows
  else keys.foldl (fun out k => interpKey rows opts out k) rows

/-! ## `cutPeakValues` (localeUtils.ts lines 437-520) -/

/-- The numeric neighbors of index `i` within `±halfWindow`
(`j` from `max(0, i - halfWindow)` to `min(length - 1, i + halfWindow)`,
skipping `i` itself), read from the *current* (mutating) array. -/
def neighborVals (rows : List Row) (key halfW i : ℕ) : List ℚ :=
  let lo := i - halfW
  let hi := min (rows.length - 1) (i + halfW)
  (List.range' lo (hi + 1 - lo)).filterMap
    (fun j => if j = i then none else rowVal rows j key)

/-- One iteration of the spike-detection loop: a numeric sample with at
least two numeric neighbors is nulled when the neighbor mean is positive and
the relative deviation exceeds the threshold, or when the neighbor mean is
not positive but the absolute value exceeds `10`. -/
def detectStep (θ : ℚ) (key halfW : ℕ) (acc : List Row) (i : ℕ) : List Row :=
  match rowVal acc i key with
  | none => acc
  | some v =>
    let neighbors := neighborVals acc key halfW i
    if neighbors.length ≥ 2 then
      let neighborMean : ℚ :=
        if neighbors.length > 0 then neighbors.sum / (neighbors.length : ℚ) else 0
      if neighborMean > 0 then
        if |v - neighborMean| / neighborMean > θ then setCell acc i key none else acc
      else if |v| > 10 then setCell acc i key none else acc
    else acc

def detectPass (rows : List Row) (key halfW : ℕ) (θ : ℚ) : List Row :=
  (List.range rows.length).foldl (detectStep θ key halfW) rows

/-- One iteration of the EWMA smoothing-and-filling loop: the running state
starts `null`; a numeric value updates `ewma = round2(α·v + (1-α)·ewma)`
(the first one seeds `round2(v)`) and replaces the cell; a null cell is
filled with the current EWMA when one exists. -/
def ewmaStep (α : ℚ) (key : ℕ) (st : List Row × Option ℚ) (i : ℕ) :
    List Row × Option ℚ :=
  match rowVal st.1 i key, st.2 with
  | some v, none =>
    let e := round2 v
    (setCell st.1 i key (some e), some e)
  | some v, some e0 =>
    let e := round2 (α * v + (1 - α) * e0)
    (setCell st.1 i key (some e), some e)
  | none, some e0 => (setCell st.1 i key (some e0), some e0)
  | none, none => st

def ewmaPass (rows : List Row) (key : ℕ) (α : ℚ) : List Row :=
  ((List.range rows.length).foldl (ewmaStep α key) (rows, none)).1

/-- `cutPeakValues(data, keys, alpha = 0.1, windowSize = 15,
spikeThreshold = 0.3)`: per key, detection then EWMA smoothing, sequentially
on the shared result array. -/
def cutPeakValues (data : List Row) (keys : List ℕ) (α : ℚ) (windowSize : ℕ)
    (θ : ℚ) : List Row :=
  if data.length = 0 then data
  else
    let halfWindow := windowSize / 2
    keys.foldl (fun result key => ewmaPass (detectPass result key halfWindow θ) key α) data

/-- A single (non-mutating) spike check at index `i` — the detection
condition of `cutPeakValues` read off a fixed array, used to express the
spec's "second detection pass over the already smoothed series". -/
def isSpikeAt (rows : List Row) (key halfW : ℕ) (θ : ℚ) (i : ℕ) : Bool :=
  match rowVal rows i key with
  | none => false
  | some v =>
    let neighbors := neighborVals rows key halfW i
    if neighbors.length ≥ 2 then
      let neighborMean : ℚ :=
        if neighbors.length > 0 then neighbors.sum / (neighbors.length : ℚ) else 0
      if neighborMean > 0 then decide (|v - neighborMean| / neighborMean > θ)
      else decide (|v| > 10)
    else false

/-! ### A concrete despike run with the default parameters

Input series `10, 10, 100, null` for key `0` (`α = 0.1`, `windowSize = 15`
so `halfWindow = 7`, `θ = 0.3`).  The mutating detection pass nulls index 0
(its neighbor mean `(10+100)/2 = 55` is dominated by the later spike), after
which indices 1 and 2 lack two numeric neighbors and survive; EWMA smoothing
then produces `null, 10, 19, 19`. -/

def exSpikeRows : List Row :=
  [⟨0, fun k => if k = 0 then some 10 else none⟩,
   ⟨1, fun k => if k = 0 then some 10 else none⟩,
   ⟨2, fun k => if k = 0 then some 100 else none⟩,
   ⟨3, fun _ => none⟩]

/-- The smoothed output of the example, as an explicit cell-update chain. -/
def exSpikeOut : List Row :=
  setCell (setCell (setCell (setCell exSpikeRows 0 0 none) 1 0 (some 10)) 2 0 (some 19))
    3 0 (some 19)

theorem exSpike_eval :
    cutPeakValues exSpikeRows [0] (1 / 10) 15 (3 / 10) = exSpikeOut := by
  set D1 : List Row := setCell exSpikeRows 0 0 none with hD1def
  -- cells of the input
  have hv0 : rowVal exSpikeRows 0 0 = some 10 := by simp [exSpikeRows, rowVal]
  -- cells after the first detection step
  have hd0 : rowVal D1 0 0 = none := by
    rw [hD1def, rowVal_setCell]
    norm_num [exSpikeRows]
  have hd1 : rowVal D1 1 0 = some 10 := by
    rw [hD1def, rowVal_setCell]
    norm_num [exSpikeRows, rowVal]
  have hd2 : rowVal D1 2 0 = some 100 := by
    rw [hD1def, rowVal_setCell]
    norm_num [exSpikeRows, rowVal]
  have hd3 : rowVal D1 3 0 = none := by
    rw [hD1def, rowVal_setCell]
    norm_num [exSpikeRows, rowVal]
  have hlenD1 : D1.length = 4 := by simp [hD1def, exSpikeRows]
  -- detection pass
  have hS0 : detectStep (3 / 10) 0 7 exSpikeRows 0 = D1 := by
    have hn : neighborVals exSpikeRows 0 7 0 = [10, 100] := by
      simp [neighborVals, exSpikeRows, rowVal, List.range']
    simp only [detectStep, hv0, hn]
    norm_num [abs, max_def]
  have hS1 : detectStep (3 / 10) 0 7 D1 1 = D1 := by
    have hn : neighborVals D1 0 7 1 = [100] := by
      simp [neighborVals, hlenD1, List.range', hd0, hd2, hd3]
    simp only [detectStep, hd1, hn]
    all_goals norm_num
  have hS2 : detectStep (3 / 10) 0 7 D1 2 = D1 := by
    have hn : neighborVals D1 0 7 2 = [10] := by
      simp [neighborVals, hlenD1, List.range', hd0, hd1, hd3]
    simp only [detectStep, hd2, hn]
    all_goals norm_num
  have hS3 : detectStep (3 / 10) 0 7 D1 3 = D1 := by
    simp only [detectStep, hd3]
  have hdetect : detectPass exSpikeRows 0 7 (3 / 10) = D1 := by
    have hlen : exSpikeRows.length = 4 := rfl
    unfold detectPass
    rw [hlen]
    have hr4 : List.range 4 = [0, 1, 2, 3] := rfl
    rw [hr4]
    simp only [List.foldl_cons, List.foldl_nil]
    rw [hS0, hS1, hS2, hS3]
  -- EWMA pass
  set E1 : List Row := setCell D1 1 0 (some 10) with hE1def
  set E2 : List Row := setCell E1 2 0 (some 19) with hE2def
  have hlenE1 : E1.length = 4 := by rw [hE1def, length_setCell, hlenD1]
  have he2 : rowVal E1 2 0 = some 100 := by
    rw [hE1def, rowVal_setCell]
    norm_num [hlenD1, hd2]
  have he3 : rowVal E2 3 0 = none := by
    rw [hE2def, rowVal_setCell, hE1def, rowVal_setCell]
    norm_num [hlenD1, hd3]
  have hW0 : ewmaStep (1 / 10) 0 (D1, none) 0 = (D1, none) := by
    simp only [ewmaStep, hd0]
  have hW1 : ewmaStep (1 / 10) 0 (D1, none) 1 = (E1, some 10) := by
    have hr : round2 10 = 10 := by norm_num [round2]
    simp only [ewmaStep, hd1, hr, hE1def]
  have hW2 : ewmaStep (1 / 10) 0 (E1, some 10) 2 = (E2, some 19) := by
    have hr : round2 (1 / 10 * 100 + (1 - 1 / 10) * 10) = 19 := by norm_num [round2]
    simp only [ewmaStep, he2, hr, hE2def]
  have hW3 : ewmaStep (1 / 10) 0 (E2, some 19) 3 = (exSpikeOut, some 19) := by
    simp only [ewmaStep, he3, exSpikeOut]
  have hewma : ewmaPass D1 0 (1 / 10) = exSpikeOut := by
    unfold ewmaPass
    rw [hlenD1]
    have hr4 : List.range 4 = [0, 1, 2, 3] := rfl
    rw [hr4]
    simp only [List.foldl_cons, List.foldl_nil]
    rw [hW0, hW1, hW2, hW3]
  -- assemble
  have hcut : cutPeakValues exSpikeRows [0] (1 / 10) 15 (3 / 10) =
      ewmaPass (detectPass exSpikeRows 0 7 (3 / 10)) 0 (1 / 10) := by
    simp only [cutPeakValues]
    rw [if_neg (by simp [exSpikeRows])]
    rfl
  rw [hcut, hdetect, hewma]

theorem exSpikeOut_cells :
    rowVal exSpikeOut 0 0 = none ∧ rowVal exSpikeOut 1 0 = some 10 ∧
    rowVal exSpikeOut 2 0 = some 19 ∧ rowVal exSpikeOut 3 0 = some 19 := by
  refine ⟨?_, ?_, ?_, ?_⟩ <;>
    · rw [exSpikeOut, rowVal_setCell, rowVal_setCell, rowVal_setCell, rowVal_setCell]
      norm_num [exSpikeRows, rowVal]

theorem exSpikeOut_len : exSpikeOut.length = 4 := by simp [exSpikeOut, exSpikeRows]

theorem exSpikeOut_secondPass :
    (List.range 4).map (fun i => isSpikeAt exSpikeOut 0 7 (3 / 10) i) =
      [false, true, true, true] := by
  obtain ⟨hc0, hc1, hc2, hc3⟩ := exSpikeOut_cells
  have hs0 : isSpikeAt exSpikeOut 0 7 (3 / 10) 0 = false := by
    simp only [isSpikeAt, hc0]
  have hs1 : isSpikeAt exSpikeOut 0 7 (3 / 10) 1 = true := by
    have hn : neighborVals exSpikeOut 0 7 1 = [19, 19] := by
      simp [neighborVals, exSpikeOut_len, List.range', hc0, hc2, hc3]
    simp only [isSpikeAt, hc1, hn]
    norm_num [abs, max_def]
  have hs2 : isSpikeAt exSpikeOut 0 7 (3 / 10) 2 = true := by
    have hn : neighborVals exSpikeOut 0 7 2 = [10, 19] := by
      simp [neighborVals, exSpikeOut_len, List.range', hc0, hc1, hc3]
    simp only [isSpikeAt, hc2, hn]
    norm_num [abs, max_def]
  have hs3 : isSpikeAt exSpikeOut 0 7 (3 / 10) 3 = true := by
    have hn : neighborVals exSpikeOut 0 7 3 = [10, 19] := by
      simp [neighborVals, exSpikeOut_len, List.range', hc0, hc1, hc2]
    simp only [isSpikeAt, hc3, hn]
    norm_num [abs, max_def]
  have hr4 : List.range 4 = [0, 1, 2, 3] := rfl
  rw [hr4]
  simp only [List.map_cons, List.map_nil, hs0, hs1, hs2, hs3]

/-- **C4 (counterexample).**  The claim says a second detection pass over
the smoothed output marks no sample, for all parameters.  With the *default*
parameters (`α = 0.1`, `windowSize = 15` i.e. `halfWindow = 7`, `θ = 0.3`)
and input series `10, 10, 100, null`, the smoothed output `null, 10, 19, 19`
still contains a sample (index 1, value `10`) with positive neighbor mean
`19` and relative deviation `9/19 > 0.3`: the second pass marks it. -/
theorem cutPeak_second_pass_cex :
    isSpikeAt (cutPeakValues exSpikeRows [0] (1 / 10) 15 (3 / 10)) 0 7 (3 / 10) 1 = true := by
  rw [exSpike_eval]
  have := exSpikeOut_secondPass
  have hr4 : List.range 4 = [0, 1, 2, 3] := rfl
  rw [hr4] at this
  simp only [List.map_cons, List.map_nil, List.cons.injEq] at this
  exact this.2.1

/-- **C4 (amended).**  `cutPeakValues` does *not* guarantee that a second
detection pass is quiescent: even with the default parameters the mutating
detection pass can null an early sample, letting a spike survive with too
few numeric neighbors, and the EWMA fill then creates fresh deviations.  On
the series `10, 10, 100, null` the output is `null, 10, 19, 19` and a second
detection pass marks indices 1, 2 and 3. -/
theorem cutPeak_second_pass_retriggers :
    cutPeakValues exSpikeRows [0] (1 / 10) 15 (3 / 10) = exSpikeOut ∧
    (rowVal exSpikeOut 0 0 = none ∧ rowVal exSpikeOut 1 0 = some 10 ∧
      rowVal exSpikeOut 2 0 = some 19 ∧ rowVal exSpikeOut 3 0 = some 19) ∧
    (List.range 4).map (fun i => isSpikeAt exSpikeOut 0 7 (3 / 10) i) =
      [false, true, true, true] :=
  ⟨exSpike_eval, exSpikeOut_cells, exSpikeOut_secondPass⟩

/-- **C9 (confirmed).**  No pipeline function throws on empty input: each of
`fillMissingTimePoints`, `interpolateNullsLinear`, `cutPeakValues` and
`sampleDataByRetention` returns an empty array for an empty input array, and
`calculateTaskStats` returns `loss = 0` (not `NaN` — the `totalPings > 0`
guard avoids the division) with `latestValue` and `latestTime` both `null`
whenever no record matches the task id and time range. -/
theorem pipeline_empty_input_safe :
    (∀ (intervalSec : ℚ) (totalSeconds matchToleranceSec : Option ℚ),
      fillMissingTimePoints [] intervalSec totalSeconds matchToleranceSec = []) ∧
    (∀ (keys : List ℕ) (opts : InterpOptions), interpolateNullsLinear [] keys opts = []) ∧
    (∀ (keys : List ℕ) (α : ℚ) (w : ℕ) (θ : ℚ), cutPeakValues [] keys α w θ = []) ∧
    (∀ (retentionHours : ℚ) (isMini : Bool), sampleDataByRetention [] retentionHours isMini = []) ∧
    (∀ (records : List PingRec) (taskId : ℕ) (tr : Option (ℚ × ℚ)),
      taskRecordsOf records taskId tr = [] →
      calculateTaskStats records taskId tr = ⟨0, none, none⟩) := by
  refine ⟨?_, ?_, ?_, ?_, ?_⟩
  · intro i t mt
    rfl
  · intro keys opts
    simp [interpolateNullsLinear]
  · intro keys α w θ
    simp [cutPeakValues]
  · intro h mini
    simp [sampleDataByRetention]
  · intro records taskId tr hempty
    simp [calculateTaskStats, hempty]

/-- **C9 (witness).** -/
theorem pipeline_empty_input_safe_witness :
    taskRecordsOf [⟨0, 2, 5⟩] 1 none = [] ∧
    calculateTaskStats [⟨0, 2, 5⟩] 1 none = ⟨0, none, none⟩ := by
  have hempty : taskRecordsOf [⟨0, 2, 5⟩] 1 none = [] := by
    simp [taskRecordsOf, relevantRecordsOf]
  exact ⟨hempty, pipeline_empty_input_safe.2.2.2.2 [⟨0, 2, 5⟩] 1 none hempty⟩

/-! ### Characterizing the interpolation pass -/

/-- `a` and `b` are consecutive elements of the list. -/
def Consec : List ℕ → ℕ → ℕ → Prop
  | a :: b :: rest, x, y => (x = a ∧ y = b) ∨ Consec (b :: rest) x y
  | _, _, _ => False

/-- The guards of `interpPairStep` all pass: increasing times, numeric
endpoints, and the gap check does not fire. -/
def PairWrites (orig : List Row) (key : ℕ) (g : ℚ) (i0 i1 : ℕ) : Prop :=
  rowTime orig i0 < rowTime orig i1 ∧
  (∃ v0, rowVal orig i0 key = some v0) ∧
  (∃ v1, rowVal orig i1 key = some v1) ∧
  ¬(g ≠ 0 ∧ rowTime orig i1 - rowTime orig i0 > g)

theorem foldl_setCell_length (f : ℕ → Option ℚ) (key : ℕ) (js : List ℕ) :
    ∀ out : List Row,
      (js.foldl (fun acc j => setCell acc j key (f j)) out).length = out.length := by
  induction js with
  | nil => intro out; rfl
  | cons j js ih =>
    intro out
    simp only [List.foldl_cons]
    rw [ih, length_setCell]

theorem foldl_setCell_rowTime (f : ℕ → Option ℚ) (key : ℕ) (js : List ℕ) :
    ∀ (out : List Row) (i : ℕ),
      rowTime (js.foldl (fun acc j => setCell acc j key (f j)) out) i = rowTime out i := by
  induction js with
  | nil => intro out i; rfl
  | cons j js ih =>
    intro out i
    simp only [List.foldl_cons]
    rw [ih, rowTime_setCell]

theorem foldl_setCell_untouched (f : ℕ → Option ℚ) (key : ℕ) (js : List ℕ) :
    ∀ (out : List Row) (i k : ℕ), (i ∉ js ∨ k ≠ key) →
      rowVal (js.foldl (fun acc j => setCell acc j key (f j)) out) i k = rowVal out i k := by
  induction js with
  | nil => intro out i k _; rfl
  | cons j js ih =>
    intro out i k h
    simp only [List.foldl_cons]
    rw [ih _ _ _ (by
      rcases h with h | h
      · exact Or.inl (fun hm => h (List.mem_cons_of_mem _ hm))
      · exact Or.inr h)]
    rw [rowVal_setCell]
    rcases h with h | h
    · rw [if_neg]
      rintro ⟨hij, -, -⟩
      exact h (hij ▸ List.mem_cons_self _ _)
    · rw [if_neg]
      rintro ⟨-, hk, -⟩
      exact h hk

theorem foldl_setCell_mem (f : ℕ → Option ℚ) (key : ℕ) (js : List ℕ) :
    ∀ (out : List Row) (i : ℕ), i ∈ js → i < out.length →
      rowVal (js.foldl (fun acc j => setCell acc j key (f j)) out) i key = f i := by
  induction js with
  | nil => intro out i h; exact absurd h (List.not_mem_nil i)
  | cons j js ih =>
    intro out i hmem hlen
    simp only [List.foldl_cons]
    by_cases hin : i ∈ js
    · exact ih _ _ hin (by rw [length_setCell]; exact hlen)
    · have hij : i = j := by
        rcases List.mem_cons.mp hmem with h | h
        · exact h
        · exact absurd h hin
      rw [foldl_setCell_untouched _ _ _ _ _ _ (Or.inl hin), rowVal_setCell,
        if_pos ⟨hij, rfl, hij ▸ hlen⟩, hij]

theorem interpPairStep_length (orig : List Row) (key : ℕ) (g : ℚ) (out : List Row)
    (i0 i1 : ℕ) : (interpPairStep orig key g out i0 i1).length = out.length := by
  unfold interpPairStep
  dsimp only
  repeat' split
  all_goals first | rfl | exact foldl_setCell_length _ _ _ _

theorem interpPairStep_rowTime (orig : List Row) (key : ℕ) (g : ℚ) (out : List Row)
    (i0 i1 i : ℕ) : rowTime (interpPairStep orig key g out i0 i1) i = rowTime out i := by
  unfold interpPairStep
  dsimp only
  repeat' split
  all_goals first | rfl | exact foldl_setCell_rowTime _ _ _ _ _

theorem interpPairStep_untouched (orig : List Row) (key : ℕ) (g : ℚ) (out : List Row)
    (i0 i1 i k : ℕ) (h : ¬(i0 < i ∧ i < i1) ∨ k ≠ key) :
    rowVal (interpPairStep orig key g out i0 i1) i k = rowVal out i k := by
  unfold interpPairStep
  dsimp only
  repeat' split
  all_goals try rfl
  apply foldl_setCell_untouched
  rcases h with h | h
  · left
    intro hm
    have hb := List.mem_range'_1.mp hm
    exact h (by omega)
  · exact Or.inr h

theorem interpPairStep_noop (orig : List Row) (key : ℕ) (g : ℚ) (out : List Row)
    (i0 i1 : ℕ) (h : ¬ PairWrites orig key g i0 i1) :
    interpPairStep orig key g out i0 i1 = out := by
  by_cases ht : rowTime orig i1 ≤ rowTime orig i0
  · unfold interpPairStep
    dsimp only
    rw [if_pos ht]
  · cases h0 : rowVal orig i0 key with
    | none =>
      cases h1 : rowVal orig i1 key with
      | none =>
        unfold interpPairStep
        dsimp only
        rw [if_neg ht, h0, h1]
      | some v1 =>
        unfold interpPairStep
        dsimp only
        rw [if_neg ht, h0, h1]
    | some v0 =>
      cases h1 : rowVal orig i1 key with
      | none =>
        unfold interpPairStep
        dsimp only
        rw [if_neg ht, h0, h1]
      | some v1 =>
        have hgap : g ≠ 0 ∧ rowTime orig i1 - rowTime orig i0 > g := by
          by_contra hng
          exact h ⟨not_le.mp ht, ⟨v0, h0⟩, ⟨v1, h1⟩, hng⟩
        unfold interpPairStep
        dsimp only
        rw [if_neg ht, h0, h1]
        simp only [if_pos hgap]

theorem interpPairStep_writes (orig : List Row) (key : ℕ) (g : ℚ) (out : List Row)
    (i0 i1 : ℕ) (v0 v1 : ℚ) (ht : rowTime orig i0 < rowTime orig i1)
    (h0 : rowVal orig i0 key = some v0) (h1 : rowVal orig i1 key = some v1)
    (hgap : ¬(g ≠ 0 ∧ rowTime orig i1 - rowTime orig i0 > g))
    (i : ℕ) (hi0 : i0 < i) (hi1 : i < i1) (hlen : i < out.length) :
    rowVal (interpPairStep orig key g out i0 i1) i key =
      some (lerpVal (rowTime orig i0) (rowTime orig i1) v0 v1 (rowTime orig i)) := by
  unfold interpPairStep
  rw [if_neg (not_le.mpr ht), h0, h1]
  simp only [if_neg hgap]
  exact foldl_setCell_mem _ _ _ _ _ (List.mem_range'_1.mpr (by omega)) hlen

theorem consec_left_mem (l : List ℕ) (a b : ℕ) (h : Consec l a b) : a ∈ l := by
  induction l with
  | nil => exact absurd h (by simp [Consec])
  | cons x rest ih =>
    cases rest with
    | nil => exact absurd h (by simp [Consec])
    | cons y rest2 =>
      rcases h with ⟨ha, _⟩ | h
      · exact ha ▸ List.mem_cons_self _ _
      · exact List.mem_cons_of_mem _ (ih h)

theorem pairwise_head_le (y : ℕ) (rest : List ℕ)
    (hp : (y :: rest).Pairwise (· < ·)) : ∀ x ∈ y :: rest, y ≤ x := by
  intro x hx
  rcases List.mem_cons.mp hx with hx | hx
  · exact hx ▸ le_refl y
  · exact le_of_lt ((List.pairwise_cons.mp hp).1 x hx)

theorem consec_no_between (l : List ℕ) (hp : l.Pairwise (· < ·)) (a b : ℕ)
    (h : Consec l a b) : ∀ j ∈ l, ¬(a < j ∧ j < b) := by
  induction l with
  | nil => exact absurd h (by simp [Consec])
  | cons x rest ih =>
    cases rest with
    | nil => exact absurd h (by simp [Consec])
    | cons y rest2 =>
      intro j hj
      rcases h with ⟨ha, hb⟩ | h
      · subst ha
        subst hb
        rcases List.mem_cons.mp hj with hj | hj
        · omega
        · have hyj : b ≤ j := pairwise_head_le _ _ (List.pairwise_cons.mp hp).2 j hj
          omega
      · have hamem : a ∈ y :: rest2 := consec_left_mem _ _ _ h
        have hya : y ≤ a := pairwise_head_le _ _ (List.pairwise_cons.mp hp).2 a hamem
        rcases List.mem_cons.mp hj with hj | hj
        · have hxy : x < y := (List.pairwise_cons.mp hp).1 y (List.mem_cons_self _ _)
          omega
        · exact ih (List.pairwise_cons.mp hp).2 h j hj

theorem consec_straddle_eq (l : List ℕ) (hp : l.Pairwise (· < ·)) (a b c d j : ℕ)
    (hab : Consec l a b) (hcd : Consec l c d) (haj : a < j) (hjb : j < b)
    (hcj : c < j) (hjd : j < d) : a = c ∧ b = d := by
  induction l with
  | nil => exact absurd hab (by simp [Consec])
  | cons x rest ih =>
    cases rest with
    | nil => exact absurd hab (by simp [Consec])
    | cons y rest2 =>
      rcases hab with ⟨ha, hb⟩ | hab
      · rcases hcd with ⟨hc, hd⟩ | hcd
        · exact ⟨ha.trans hc.symm, hb.trans hd.symm⟩
        · exfalso
          have hcmem : c ∈ y :: rest2 := consec_left_mem _ _ _ hcd
          have hyc : y ≤ c := pairwise_head_le _ _ (List.pairwise_cons.mp hp).2 c hcmem
          omega
      · rcases hcd with ⟨hc, hd⟩ | hcd
        · exfalso
          have hamem : a ∈ y :: rest2 := consec_left_mem _ _ _ hab
          have hya : y ≤ a := pairwise_head_le _ _ (List.pairwise_cons.mp hp).2 a hamem
          omega
        · exact ih (List.pairwise_cons.mp hp).2 hab hcd

theorem interpChain_length (orig : List Row) (key : ℕ) (g : ℚ) :
    ∀ (chain : List ℕ) (out : List Row),
      (interpChain orig key g chain out).length = out.length := by
  intro chain
  induction chain with
  | nil => intro out; rfl
  | cons a rest ih =>
    intro out
    cases rest with
    | nil => rfl
    | cons b rest2 =>
      show (interpChain orig key g (b :: rest2) (interpPairStep orig key g out a b)).length = _
      rw [ih, interpPairStep_length]

theorem interpChain_rowTime (orig : List Row) (key : ℕ) (g : ℚ) :
    ∀ (chain : List ℕ) (out : List Row) (i : ℕ),
      rowTime (interpChain orig key g chain out) i = rowTime out i := by
  intro chain
  induction chain with
  | nil => intro out i; rfl
  | cons a rest ih =>
    intro out i
    cases rest with
    | nil => rfl
    | cons b rest2 =>
      show rowTime (interpChain orig key g (b :: rest2) (interpPairStep orig key g out a b)) i = _
      rw [ih, interpPairStep_rowTime]

theorem interpChain_otherkey (orig : List Row) (key : ℕ) (g : ℚ) (k : ℕ) (hk : k ≠ key) :
    ∀ (chain : List ℕ) (out : List Row) (i : ℕ),
      rowVal (interpChain orig key g chain out) i k = rowVal out i k := by
  intro chain
  induction chain with
  | nil => intro out i; rfl
  | cons a rest ih =>
    intro out i
    cases rest with
    | nil => rfl
    | cons b rest2 =>
      show rowVal (interpChain orig key g (b :: rest2) (interpPairStep orig key g out a b)) i k = _
      rw [ih, interpPairStep_untouched _ _ _ _ _ _ _ _ (Or.inr hk)]

theorem interpChain_nofill (orig : List Row) (key : ℕ) (g : ℚ) (i : ℕ) :
    ∀ (chain : List ℕ) (out : List Row),
      (∀ a b, Consec chain a b → a < i → i < b → ¬ PairWrites orig key g a b) →
      rowVal (interpChain orig key g chain out) i key = rowVal out i key := by
  intro chain
  induction chain with
  | nil => intro out _; rfl
  | cons a rest ih =>
    intro out hno
    cases rest with
    | nil => rfl
    | cons b rest2 =>
      have hstep : rowVal (interpPairStep orig key g out a b) i key = rowVal out i key := by
        by_cases hs : a < i ∧ i < b
        · rw [interpPairStep_noop _ _ _ _ _ _ (hno a b (Or.inl ⟨rfl, rfl⟩) hs.1 hs.2)]
        · exact interpPairStep_untouched _ _ _ _ _ _ _ _ (Or.inl hs)
      show rowVal (interpChain orig key g (b :: rest2) (interpPairStep orig key g out a b)) i key = _
      rw [ih _ (fun a' b' hc => hno a' b' (Or.inr hc)), hstep]

theorem interpChain_cases (orig : List Row) (key : ℕ) (g : ℚ) (i : ℕ) :
    ∀ (chain : List ℕ), chain.Pairwise (· < ·) → (∀ x ∈ chain, x < orig.length) →
      ∀ (out : List Row), out.length = orig.length →
      rowVal (interpChain orig key g chain out) i key = rowVal out i key ∨
      ∃ a b v0 v1, Consec chain a b ∧ a < i ∧ i < b ∧
        rowTime orig a < rowTime orig b ∧
        rowVal orig a key = some v0 ∧ rowVal orig b key = some v1 ∧
        ¬(g ≠ 0 ∧ rowTime orig b - rowTime orig a > g) ∧
        rowVal (interpChain orig key g chain out) i key =
          some (lerpVal (rowTime orig a) (rowTime orig b) v0 v1 (rowTime orig i)) := by
  intro chain
  induction chain with
  | nil =>
    intro _ _ out _
    exact Or.inl rfl
  | cons a rest ih =>
    intro hpw hmem out hlen
    cases rest with
    | nil => exact Or.inl rfl
    | cons b rest2 =>
      have hpwt : (b :: rest2).Pairwise (· < ·) := (List.pairwise_cons.mp hpw).2
      have hmemt : ∀ x ∈ b :: rest2, x < orig.length :=
        fun x hx => hmem x (List.mem_cons_of_mem _ hx)
      by_cases hs : (a < i ∧ i < b) ∧ PairWrites orig key g a b
      · right
        obtain ⟨⟨hi0, hi1⟩, ht, ⟨v0, h0⟩, ⟨v1, h1⟩, hgap⟩ := hs
        have hilen : i < out.length := by
          have hb : b < orig.length := hmem b (List.mem_cons_of_mem _ (List.mem_cons_self _ _))
          omega
        have hwrite : rowVal (interpPairStep orig key g out a b) i key =
            some (lerpVal (rowTime orig a) (rowTime orig b) v0 v1 (rowTime orig i)) :=
          interpPairStep_writes _ _ _ _ _ _ _ _ ht h0 h1 hgap i hi0 hi1 hilen
        have htail : rowVal (interpChain orig key g (b :: rest2)
            (interpPairStep orig key g out a b)) i key =
            rowVal (interpPairStep orig key g out a b) i key := by
          apply interpChain_nofill
          intro a' b' hc ha' hb'
          exfalso
          have ha'mem : a' ∈ b :: rest2 := consec_left_mem _ _ _ hc
          have hba' : b ≤ a' := pairwise_head_le _ _ hpwt a' ha'mem
          omega
        refine ⟨a, b, v0, v1, Or.inl ⟨rfl, rfl⟩, hi0, hi1, ht, h0, h1, hgap, ?_⟩
        show rowVal (interpChain orig key g (b :: rest2)
          (interpPairStep orig key g out a b)) i key = _
        rw [htail, hwrite]
      · have hstep : rowVal (interpPairStep orig key g out a b) i key = rowVal out i key := by
          rcases not_and_or.mp hs with hns | hnw
          · exact interpPairStep_untouched _ _ _ _ _ _ _ _ (Or.inl hns)
          · rw [interpPairStep_noop _ _ _ _ _ _ hnw]
        have hlen' : (interpPairStep orig key g out a b).length = orig.length := by
          rw [interpPairStep_length, hlen]
        rcases ih hpwt hmemt (interpPairStep orig key g out a b) hlen' with hL | hR
        · left
          show rowVal (interpChain orig key g (b :: rest2)
            (interpPairStep orig key g out a b)) i key = _
          rw [hL, hstep]
        · obtain ⟨a', b', v0, v1, hc, h2, h3, h4, h5, h6, h7, h8⟩ := hR
          exact Or.inr ⟨a', b', v0, v1, Or.inr hc, h2, h3, h4, h5, h6, h7, h8⟩

theorem validIdx_pairwise (rows : List Row) (key : ℕ) :
    (validIdx rows key).Pairwise (· < ·) :=
  (List.pairwise_lt_range _).filter _

theorem validIdx_mem_iff (rows : List Row) (key i : ℕ) :
    i ∈ validIdx rows key ↔ i < rows.length ∧ (rowVal rows i key).isSome := by
  simp [validIdx, List.mem_filter, List.mem_range]

theorem validIdx_lt (rows : List Row) (key : ℕ) :
    ∀ x ∈ validIdx rows key, x < rows.length :=
  fun x hx => ((validIdx_mem_iff rows key x).mp hx).1

theorem rowVal_isSome_lt (rows : List Row) (i k : ℕ)
    (h : (rowVal rows i k).isSome) : i < rows.length := by
  by_contra hge
  rw [rowVal, List.get?_eq_none.mpr (by omega)] at h
  simp at h

theorem interpKey_length (orig : List Row) (opts : InterpOptions) (out : List Row)
    (key : ℕ) : (interpKey orig opts out key).length = out.length := by
  unfold interpKey
  dsimp only
  repeat' split
  all_goals first | rfl | exact interpChain_length _ _ _ _ _

theorem interpKey_rowTime (orig : List Row) (opts : InterpOptions) (out : List Row)
    (key i : ℕ) : rowTime (interpKey orig opts out key) i = rowTime out i := by
  unfold interpKey
  dsimp only
  repeat' split
  all_goals first | rfl | exact interpChain_rowTime _ _ _ _ _ _

theorem interpKey_otherkey (orig : List Row) (opts : InterpOptions) (out : List Row)
    (key i k : ℕ) (hk : k ≠ key) :
    rowVal (interpKey orig opts out key) i k = rowVal out i k := by
  unfold interpKey
  dsimp only
  repeat' split
  all_goals first | rfl | exact interpChain_otherkey _ _ _ _ hk _ _ _

theorem interpKey_preserves_valid (orig : List Row) (opts : InterpOptions)
    (out : List Row) (key i : ℕ) (hv : (rowVal orig i key).isSome) :
    rowVal (interpKey orig opts out key) i key = rowVal out i key := by
  unfold interpKey
  dsimp only
  repeat' split
  all_goals try rfl
  apply interpChain_nofill
  intro a b hc ha hb
  exfalso
  have himem : i ∈ validIdx orig key :=
    (validIdx_mem_iff _ _ _).mpr ⟨rowVal_isSome_lt _ _ _ hv, hv⟩
  exact consec_no_between _ (validIdx_pairwise _ _) _ _ hc i himem ⟨ha, hb⟩

theorem interpKey_keeps_null_capped (orig : List Row) (opts : InterpOptions)
    (out : List Row) (key j : ℕ) (g : ℚ) (i0 i1 : ℕ)
    (hcap : capForKey orig key opts = some g) (hg : g ≠ 0)
    (hcons : Consec (validIdx orig key) i0 i1) (hj0 : i0 < j) (hj1 : j < i1)
    (hgap : rowTime orig i1 - rowTime orig i0 > g) :
    rowVal (interpKey orig opts out key) j key = rowVal out j key := by
  unfold interpKey
  dsimp only
  repeat' split
  all_goals try rfl
  rename_i g' hcapeq
  have hg2 : g' = g := by
    first
      | exact hcapeq.symm
      | (rw [hcap] at hcapeq; exact (Option.some.inj hcapeq).symm)
  subst hg2
  apply interpChain_nofill
  intro a b hc ha hb hw
  obtain ⟨ht, _, _, hnot⟩ := hw
  obtain ⟨hae, hbe⟩ := consec_straddle_eq _ (validIdx_pairwise _ _) a b i0 i1 j
    hc hcons ha hb hj0 hj1
  exact hnot ⟨hg, by rw [hae, hbe]; exact hgap⟩

theorem interpKey_cases (orig : List Row) (opts : InterpOptions) (out : List Row)
    (key j : ℕ) (hlen : out.length = orig.length) :
    rowVal (interpKey orig opts out key) j key = rowVal out j key ∨
    ∃ (g : ℚ) (a b : ℕ) (v0 v1 : ℚ), capForKey orig key opts = some g ∧
      Consec (validIdx orig key) a b ∧ a < j ∧ j < b ∧
      rowTime orig a < rowTime orig b ∧
      rowVal orig a key = some v0 ∧ rowVal orig b key = some v1 ∧
      ¬(g ≠ 0 ∧ rowTime orig b - rowTime orig a > g) ∧
      rowVal (interpKey orig opts out key) j key =
        some (lerpVal (rowTime orig a) (rowTime orig b) v0 v1 (rowTime orig j)) := by
  unfold interpKey
  dsimp only
  split
  · exact Or.inl rfl
  · split
    · exact Or.inl rfl
    · rename_i g hcapeq
      rcases interpChain_cases orig key g j (validIdx orig key) (validIdx_pairwise _ _)
        (validIdx_lt _ _) out hlen with hL | hR
      · exact Or.inl hL
      · obtain ⟨a, b, v0, v1, hc, h2, h3, h4, h5, h6, h7, h8⟩ := hR
        exact Or.inr ⟨g, a, b, v0, v1, hcapeq, hc, h2, h3, h4, h5, h6, h7, h8⟩

/-- The cell `(j, k)` of `st` holds the linear interpolation between two
bounding consecutive valid samples of the original array. -/
def FilledCell (rows : List Row) (k j : ℕ) (st : List Row) : Prop :=
  ∃ (i0 i1 : ℕ) (v0 v1 : ℚ), Consec (validIdx rows k) i0 i1 ∧ i0 < j ∧ j < i1 ∧
    rowVal rows i0 k = some v0 ∧ rowVal rows i1 k = some v1 ∧
    rowTime rows i0 < rowTime rows i1 ∧
    rowVal st j k = some (lerpVal (rowTime rows i0) (rowTime rows i1) v0 v1 (rowTime rows j))

theorem interpFold_length (rows : List Row) (opts : InterpOptions) :
    ∀ (keys : List ℕ) (st : List Row),
      (keys.foldl (fun out k => interpKey rows opts out k) st).length = st.length := by
  intro keys
  induction keys with
  | nil => intro st; rfl
  | cons key keys ih =>
    intro st
    simp only [List.foldl_cons]
    rw [ih, interpKey_length]

theorem interpFold_rowTime (rows : List Row) (opts : InterpOptions) :
    ∀ (keys : List ℕ) (st : List Row) (i : ℕ),
      rowTime (keys.foldl (fun out k => interpKey rows opts out k) st) i = rowTime st i := by
  intro keys
  induction keys with
  | nil => intro st i; rfl
  | cons key keys ih =>
    intro st i
    simp only [List.foldl_cons]
    rw [ih, interpKey_rowTime]

theorem interpFold_preserves_cell (rows : List Row) (opts : InterpOptions)
    (j k : ℕ) (q : ℚ) (hq : rowVal rows j k = some q) :
    ∀ (keys : List ℕ) (st : List Row), rowVal st j k = some q →
      rowVal (keys.foldl (fun out k' => interpKey rows opts out k') st) j k = some q := by
  intro keys
  induction keys with
  | nil => intro st h; exact h
  | cons key keys ih =>
    intro st hst
    simp only [List.foldl_cons]
    apply ih
    by_cases hk : k = key
    · subst hk
      rw [interpKey_preserves_valid _ _ _ _ _ (by rw [hq]; rfl)]
      exact hst
    · rw [interpKey_otherkey _ _ _ _ _ _ hk]
      exact hst

theorem interpFold_keeps_null (rows : List Row) (opts : InterpOptions)
    (j k : ℕ) (g : ℚ) (i0 i1 : ℕ) (hcap : capForKey rows k opts = some g)
    (hg : g ≠ 0) (hcons : Consec (validIdx rows k) i0 i1) (hj0 : i0 < j)
    (hj1 : j < i1) (hgap : rowTime rows i1 - rowTime rows i0 > g) :
    ∀ (keys : List ℕ) (st : List Row), rowVal st j k = none →
      rowVal (keys.foldl (fun out k' => interpKey rows opts out k') st) j k = none := by
  intro keys
  induction keys with
  | nil => intro st h; exact h
  | cons key keys ih =>
    intro st hst
    simp only [List.foldl_cons]
    apply ih
    by_cases hk : k = key
    · subst hk
      rw [interpKey_keeps_null_capped rows opts st k j g i0 i1 hcap hg hcons hj0 hj1 hgap]
      exact hst
    · rw [interpKey_otherkey _ _ _ _ _ _ hk]
      exact hst

theorem interpFold_filled (rows : List Row) (opts : InterpOptions) (j k : ℕ) :
    ∀ (keys : List ℕ) (st : List Row), st.length = rows.length →
      (rowVal st j k = none ∨ FilledCell rows k j st) →
      (rowVal (keys.foldl (fun out k' => interpKey rows opts out k') st) j k = none ∨
        FilledCell rows k j (keys.foldl (fun out k' => interpKey rows opts out k') st)) := by
  intro keys
  induction keys with
  | nil => intro st _ h; exact h
  | cons key keys ih =>
    intro st hlen hP
    simp only [List.foldl_cons]
    apply ih _ (by rw [interpKey_length]; exact hlen)
    by_cases hk : k = key
    · subst hk
      rcases interpKey_cases rows opts st k j hlen with hsame | hfill
      · rcases hP with hnone | hfilled
        · exact Or.inl (by rw [hsame, hnone])
        · obtain ⟨i0, i1, v0, v1, hc, h2, h3, h4, h5, h6, h7⟩ := hfilled
          exact Or.inr ⟨i0, i1, v0, v1, hc, h2, h3, h4, h5, h6, by rw [hsame, h7]⟩
      · obtain ⟨g, a, b, v0, v1, _, hc, h2, h3, h4, h5, h6, _, h8⟩ := hfill
        exact Or.inr ⟨a, b, v0, v1, hc, h2, h3, h5, h6, h4, h8⟩
    · rcases hP with hnone | hfilled
      · exact Or.inl (by rw [interpKey_otherkey _ _ _ _ _ _ hk, hnone])
      · obtain ⟨i0, i1, v0, v1, hc, h2, h3, h4, h5, h6, h7⟩ := hfilled
        exact Or.inr ⟨i0, i1, v0, v1, hc, h2, h3, h4, h5, h6,
          by rw [interpKey_otherkey _ _ _ _ _ _ hk, h7]⟩

theorem consec_right_mem (l : List ℕ) (a b : ℕ) (h : Consec l a b) : b ∈ l := by
  induction l with
  | nil => exact absurd h (by simp [Consec])
  | cons x rest ih =>
    cases rest with
    | nil => exact absurd h (by simp [Consec])
    | cons y rest2 =>
      rcases h with ⟨_, hb⟩ | h
      · exact hb ▸ List.mem_cons_of_mem _ (List.mem_cons_self _ _)
      · exact List.mem_cons_of_mem _ (ih h)

theorem lerp_between (t0 t1 v0 v1 tj : ℚ) (h01 : t0 < t1) (h0j : t0 ≤ tj)
    (hj1 : tj ≤ t1) :
    min v0 v1 ≤ lerpVal t0 t1 v0 v1 tj ∧ lerpVal t0 t1 v0 v1 tj ≤ max v0 v1 := by
  have hd : 0 < t1 - t0 := sub_pos.mpr h01
  have hr0 : 0 ≤ (tj - t0) / (t1 - t0) := div_nonneg (by linarith) hd.le
  have hr1 : (tj - t0) / (t1 - t0) ≤ 1 := by
    rw [div_le_one hd]
    linarith
  unfold lerpVal
  rcases le_total v0 v1 with hv | hv
  · rw [min_eq_left hv, max_eq_right hv]
    constructor <;> nlinarith
  · rw [min_eq_right hv, max_eq_left hv]
    constructor <;> nlinarith

theorem rowTime_mono (rows : List Row)
    (hsorted : rows.Pairwise (fun r r' => r.timeMs ≤ r'.timeMs))
    (p q : ℕ) (hpq : p < q) (hq : q < rows.length) :
    rowTime rows p ≤ rowTime rows q := by
  have hp : p < rows.length := lt_trans hpq hq
  have hget := List.pairwise_iff_get.mp hsorted ⟨p, hp⟩ ⟨q, hq⟩ hpq
  rw [rowTime, rowTime, List.get?_eq_get hp, List.get?_eq_get hq]
  exact hget

/-- **C10 (confirmed).**  `interpolateNullsLinear` only writes into cells
that were null in the input: every cell that holds a number in the input
holds the same number in the output, and the output has the same number of
rows with unchanged time stamps. -/
theorem interp_frame (rows : List Row) (keys : List ℕ) (opts : InterpOptions) :
    (∀ (j k : ℕ) (q : ℚ), rowVal rows j k = some q →
      rowVal (interpolateNullsLinear rows keys opts) j k = some q) ∧
    (interpolateNullsLinear rows keys opts).length = rows.length ∧
    (∀ j, rowTime (interpolateNullsLinear rows keys opts) j = rowTime rows j) := by
  unfold interpolateNullsLinear
  split
  · exact ⟨fun _ _ _ h => h, rfl, fun _ => rfl⟩
  · exact ⟨fun j k q h => interpFold_preserves_cell rows opts j k q h keys rows h,
      interpFold_length rows opts keys rows,
      fun j => interpFold_rowTime rows opts keys rows j⟩

/-- **C10 (witness).** -/
theorem interp_frame_witness :
    rowVal [⟨0, fun k => if k = 0 then some 3 else none⟩] 0 0 = some 3 ∧
    rowVal (interpolateNullsLinear [⟨0, fun k => if k = 0 then some 3 else none⟩]
      [0] ⟨none, none, none, none⟩) 0 0 = some 3 := by
  have h : rowVal [(⟨0, fun k => if k = 0 then some 3 else none⟩ : Row)] 0 0 = some 3 := by
    simp [rowVal]
  exact ⟨h, (interp_frame _ [0] _).1 0 0 3 h⟩

/-- **C3 (amended).**  For a time-sorted row array, every value that
`interpolateNullsLinear` writes into a previously null cell is the linear
interpolation between the two bounding consecutive valid samples of the same
key and lies between their values (no overshoot); and a null cell inside a
gap wider than a *non-zero* cap remains null.  (A supplied unified
`maxGapMs` of `0` is falsy in JS and disables the gap check, so the cap
must be non-zero for the second part — that is the only amendment.) -/
theorem interp_bounded_and_capped (rows : List Row) (keys : List ℕ)
    (opts : InterpOptions)
    (hsorted : rows.Pairwise (fun r r' => r.timeMs ≤ r'.timeMs))
    (j k : ℕ) (hnull : rowVal rows j k = none) :
    (∀ q : ℚ, rowVal (interpolateNullsLinear rows keys opts) j k = some q →
      ∃ (i0 i1 : ℕ) (v0 v1 : ℚ), Consec (validIdx rows k) i0 i1 ∧ i0 < j ∧ j < i1 ∧
        rowVal rows i0 k = some v0 ∧ rowVal rows i1 k = some v1 ∧
        rowTime rows i0 < rowTime rows i1 ∧
        q = lerpVal (rowTime rows i0) (rowTime rows i1) v0 v1 (rowTime rows j) ∧
        min v0 v1 ≤ q ∧ q ≤ max v0 v1) ∧
    (∀ (g : ℚ) (i0 i1 : ℕ), capForKey rows k opts = some g → g ≠ 0 →
      Consec (validIdx rows k) i0 i1 → i0 < j → j < i1 →
      rowTime rows i1 - rowTime rows i0 > g →
      rowVal (interpolateNullsLinear rows keys opts) j k = none) := by
  constructor
  · intro q hq
    by_cases hearly : rows.length = 0 ∨ keys.length = 0
    · rw [interpolateNullsLinear, if_pos hearly] at hq
      rw [hq] at hnull
      exact Option.noConfusion hnull
    · have heq : interpolateNullsLinear rows keys opts =
          keys.foldl (fun out k' => interpKey rows opts out k') rows := by
        rw [interpolateNullsLinear, if_neg hearly]
      rcases interpFold_filled rows opts j k keys rows rfl (Or.inl hnull) with hnone | hfill
      · rw [heq, hnone] at hq
        exact Option.noConfusion hq
      · obtain ⟨i0, i1, v0, v1, hc, h2, h3, h4, h5, h6, h7⟩ := hfill
        rw [heq, h7] at hq
        have hqe : q = lerpVal (rowTime rows i0) (rowTime rows i1) v0 v1 (rowTime rows j) :=
          (Option.some.inj hq).symm
        have hi1len : i1 < rows.length :=
          validIdx_lt rows k i1 (consec_right_mem _ _ _ hc)
        have hjlen : j < rows.length := lt_trans h3 hi1len
        have ht0j : rowTime rows i0 ≤ rowTime rows j :=
          rowTime_mono rows hsorted i0 j h2 hjlen
        have htji : rowTime rows j ≤ rowTime rows i1 :=
          rowTime_mono rows hsorted j i1 h3 hi1len
        have hb := lerp_between (rowTime rows i0) (rowTime rows i1) v0 v1
          (rowTime rows j) h6 ht0j htji
        exact ⟨i0, i1, v0, v1, hc, h2, h3, h4, h5, h6, hqe,
          by rw [hqe]; exact hb.1, by rw [hqe]; exact hb.2⟩
  · intro g i0 i1 hcap hg hcons hj0 hj1 hgap
    by_cases hearly : rows.length = 0 ∨ keys.length = 0
    · rw [interpolateNullsLinear, if_pos hearly]
      exact hnull
    · rw [interpolateNullsLinear, if_neg hearly]
      exact interpFold_keeps_null rows opts j k g i0 i1 hcap hg hcons hj0 hj1 hgap
        keys rows hnull

/-- Input fixture for the interpolation examples: valid samples at `t = 0`
(value 0) and `t = 200000` (value 10) with a null cell at `t = 100000`. -/
def exInterpRows : List Row :=
  [⟨0, fun k => if k = 0 then some 0 else none⟩,
   ⟨100000, fun _ => none⟩,
   ⟨200000, fun k => if k = 0 then some 10 else none⟩]

theorem exInterpRows_validIdx : validIdx exInterpRows 0 = [0, 2] := by
  simp [validIdx, exInterpRows, rowVal, List.range_succ]

/-- **C3 (witness).** -/
theorem interp_bounded_and_capped_witness :
    rowVal (interpolateNullsLinear exInterpRows [0] ⟨some (-1), none, none, none⟩) 1 0 =
      none := by
  have hsorted : exInterpRows.Pairwise (fun r r' => r.timeMs ≤ r'.timeMs) := by
    norm_num [exInterpRows, List.pairwise_cons]
  have hnull : rowVal exInterpRows 1 0 = none := by simp [exInterpRows, rowVal]
  have hcons : Consec (validIdx exInterpRows 0) 0 2 := by
    rw [exInterpRows_validIdx]
    exact Or.inl ⟨rfl, rfl⟩
  exact (interp_bounded_and_capped exInterpRows [0] ⟨some (-1), none, none, none⟩
    hsorted 1 0 hnull).2 (-1) 0 2 rfl (by norm_num) hcons (by norm_num) (by norm_num)
    (by norm_num [exInterpRows, rowTime])

/-- **C3 (counterexample).**  The claim also covers the supplied unified
`maxGapMs`: a cap of `0` should leave every positive gap null.  But `0` is
falsy in JS (`if (perKeyMaxGap && …)`), so the gap check is skipped: with
`maxGapMs = 0` the null cell at `t = 100000` inside the `200000 ms` gap
(wider than the cap `0`) is filled with the interpolation value `5`. -/
theorem interp_zero_cap_cex :
    rowVal exInterpRows 1 0 = none ∧
    rowTime exInterpRows 2 - rowTime exInterpRows 0 > 0 ∧
    rowVal (interpolateNullsLinear exInterpRows [0] ⟨some 0, none, none, none⟩) 1 0 =
      some 5 := by
  have hnull : rowVal exInterpRows 1 0 = none := by simp [exInterpRows, rowVal]
  have hgap : rowTime exInterpRows 2 - rowTime exInterpRows 0 > 0 := by
    norm_num [exInterpRows, rowTime]
  refine ⟨hnull, hgap, ?_⟩
  have h1 : interpolateNullsLinear exInterpRows [0] ⟨some 0, none, none, none⟩ =
      interpKey exInterpRows ⟨some 0, none, none, none⟩ exInterpRows 0 := by
    rw [interpolateNullsLinear, if_neg (by simp [exInterpRows])]
    rfl
  have h2 : interpKey exInterpRows ⟨some 0, none, none, none⟩ exInterpRows 0 =
      interpChain exInterpRows 0 0 [0, 2] exInterpRows := by
    unfold interpKey
    dsimp only
    rw [exInterpRows_validIdx]
    rfl
  have h3 : interpChain exInterpRows 0 0 [0, 2] exInterpRows =
      interpPairStep exInterpRows 0 0 exInterpRows 0 2 := rfl
  have ht0 : rowTime exInterpRows 0 = 0 := by simp [exInterpRows, rowTime]
  have ht1 : rowTime exInterpRows 1 = 100000 := by simp [exInterpRows, rowTime]
  have ht2 : rowTime exInterpRows 2 = 200000 := by simp [exInterpRows, rowTime]
  have hv0 : rowVal exInterpRows 0 0 = some 0 := by simp [exInterpRows, rowVal]
  have hv2 : rowVal exInterpRows 2 0 = some 10 := by simp [exInterpRows, rowVal]
  have h4 : rowVal (interpPairStep exInterpRows 0 0 exInterpRows 0 2) 1 0 =
      some (lerpVal (rowTime exInterpRows 0) (rowTime exInterpRows 2) 0 10
        (rowTime exInterpRows 1)) :=
    interpPairStep_writes exInterpRows 0 0 exInterpRows 0 2 0 10
      (by rw [ht0, ht2]; norm_num) hv0 hv2 (fun h => h.1 rfl) 1
      (by norm_num) (by norm_num) (by simp [exInterpRows])
  rw [h1, h2, h3, h4, ht0, ht1, ht2]
  norm_num [lerpVal]

end PurCarte
